import Mathlib

/-!
Verification of the document template-merge engine of the GwFactories
repository (document-factory).

The definitions below are a shallow embedding of the JavaScript source:

- MergeHelper.findAllTags and findAllRanges (scanner) from
  src/document-factory/src/onOpen.gs.js lines 67-106 and
  src/document-factory/test/test.gs.js lines 126-136;
- MergeHelper.merge (substitution engine plus structural cleanup) from
  src/document-factory/src/onOpen.gs.js lines 115-265.

Text is modelled as List Char.  Document text elements support the two
splice primitives used by the source (Text.deleteText with inclusive
offsets and Text.insertText), and the document tree is modelled by the
element kinds the merge code manipulates: paragraphs, list items and
tables (rows of cells of paragraphs).  Parts (header, body, footer,
footnotes) form a list, in the order produced by getDocumentParts.
-/

/-- Character list of a string literal, used for concrete test documents. -/
def strL (s : String) : List Char := s.data

/-! ## Text splice primitives

Apps Script Text.deleteText(start, endInclusive) removes the inclusive
index range, Text.insertText(offset, text) inserts before the offset.
-/

/-- Embedding of Text.deleteText: remove indices a..b (inclusive). -/
def deleteText (s : List Char) (a b : Nat) : List Char :=
  s.take a ++ s.drop (b + 1)

/-- Embedding of Text.insertText: insert t before index a. -/
def insertText (s : List Char) (a : Nat) (t : List Char) : List Char :=
  s.take a ++ t ++ s.drop a

/-- Substring with inclusive end offset, as used by getStringFromRange
(str.substring(range.getStartOffset(), range.getEndOffsetInclusive() + 1)). -/
def extract (s : List Char) (st e : Nat) : List Char :=
  (s.drop st).take (e + 1 - st)

/-! ## Character classes of the scanner pattern

The source pattern is the regular expression

  <[^<>]*<[^<>\?]+\??>[^<>]*>

isPS is the class [^<>] used for the literal wrapper runs, isTC is the
class [^<>\?] used for the tag name.
-/

def isPS (c : Char) : Bool := c != '<' && c != '>'

def isTC (c : Char) : Bool := c != '<' && c != '>' && c != '?'

/-- Split character class [<>], used by match.split(/[<>]/). -/
def isBr (c : Char) : Bool := c == '<' || c == '>'

/-- Line separator test, used by tagValue.split with separator "\n". -/
def isNL (c : Char) : Bool := c == '\n'

/-- Embedding of JavaScript String.split with a single-character
separator class: "a<b>c".split yields ["a","b","c"], "" yields [""]. -/
def splitOnP (p : Char → Bool) : List Char → List (List Char)
  | [] => [[]]
  | c :: cs =>
    if p c then [] :: splitOnP p cs
    else
      match splitOnP p cs with
      | [] => [[c]]
      | g :: gs => (c :: g) :: gs

/-- Text of a table cell as returned by cell.asText().getText(): the cell
paragraphs joined by line breaks. -/
def joinNL : List (List Char) → List Char
  | [] => []
  | [t] => t
  | t :: ts => t ++ '\n' :: joinNL ts

/-! ## The tag pattern matcher

parseTag decides whether the regular expression

  <[^<>]*<[^<>\?]+\??>[^<>]*>

matches a prefix of the given suffix of the text, returning the length of
the match.  The pattern is deterministic under backtracking: each starred
or plus-quantified class excludes the character that must follow it, so
the greedy maximal run is the only viable one, and the optional question
mark can be taken exactly when the next character allows the following
literal to match.  Hence the maximal-munch reading below is equivalent to
the regex search semantics of findText.
-/

/-- Tail of the matcher: after the inner closing bracket, consume the
second wrapper run and the outer closing bracket. -/
def parseTail (base : Nat) (s3 : List Char) : Option Nat :=
  let r3 := s3.takeWhile isPS
  match s3.dropWhile isPS with
  | '>' :: _ => some (base + r3.length)
  | _ => none

/-- Match the tag pattern at the head of s, returning the match length. -/
def parseTag : List Char → Option Nat
  | '<' :: s1 =>
    let r1 := s1.takeWhile isPS
    (match s1.dropWhile isPS with
     | '<' :: s2 =>
       let r2 := s2.takeWhile isTC
       if r2.isEmpty then none
       else
         (match s2.dropWhile isTC with
          | '?' :: '>' :: s3 => parseTail (5 + r1.length + r2.length) s3
          | '>' :: s3 => parseTail (4 + r1.length + r2.length) s3
          | _ => none)
     | _ => none)
  | _ => none

/-- Repeated forward search: find every match, each search resuming
strictly after the end of the previous match, as findAllRanges does with
document.findText.  The fuel argument bounds the scan position. -/
def scanAux (s : List Char) : Nat → Nat → List (Nat × Nat)
  | 0, _ => []
  | fuel + 1, p =>
    match parseTag (s.drop p) with
    | some len => (p, p + len - 1) :: scanAux s fuel (p + len)
    | none => if p < s.length then scanAux s fuel (p + 1) else []

/-- All matches of the tag pattern in one text, in order of occurrence,
as ranges (startOffset, endOffsetInclusive). -/
def findAllRangesIn (s : List Char) : List (Nat × Nat) :=
  scanAux s (s.length + 1) 0

example : findAllRangesIn (strL "Hello <<Name>> World") = [(6, 13)] := by decide
example : findAllRangesIn (strL "<<>>") = [] := by decide
example : findAllRangesIn (strL "<a<t?>b><<X>>") = [(0, 7), (8, 12)] := by decide

/-! ## Document model

Element kinds manipulated by the merge code: paragraphs and list items
(each owning one text), and tables (rows of cells, each cell a list of
paragraph texts).  A part is a list of elements; a document is the list
of its parts in getDocumentParts order.
-/

inductive Elem where
  | para (text : List Char)
  | item (glyph : Nat) (text : List Char)
  | table (rows : List (List (List (List Char))))
deriving DecidableEq, Repr

abbrev Parts := List (List Elem)

/-- Position of a text element inside the document: either a direct
child of a part, or a paragraph of a table cell. -/
inductive Loc where
  | top (p i : Nat)
  | inCell (p i r c j : Nat)
deriving DecidableEq, Repr

/-- List lookup (getChild). -/
def nth : List α → Nat → Option α
  | [], _ => none
  | a :: _, 0 => some a
  | _ :: l, n + 1 => nth l n

/-- Replace the element at an index, identity when out of range. -/
def setNth : List α → Nat → α → List α
  | [], _, _ => []
  | _ :: l, 0, b => b :: l
  | a :: l, n + 1, b => a :: setNth l n b

/-- Apply a function to the element at an index. -/
def modNth (f : α → α) : Nat → List α → List α
  | _, [] => []
  | 0, a :: l => f a :: l
  | n + 1, a :: l => a :: modNth f n l

/-- Remove the element at an index (removeFromParent / removeRow). -/
def eraseNth : List α → Nat → List α
  | [], _ => []
  | _ :: l, 0 => l
  | a :: l, n + 1 => a :: eraseNth l n

/-- Insert a block of elements before an index (insertListItem). -/
def insertAllAt (l : List α) (k : Nat) (xs : List α) : List α :=
  l.take k ++ xs ++ l.drop k

def elemAt (parts : Parts) (p i : Nat) : Option Elem :=
  match nth parts p with
  | some part => nth part i
  | none => none

def modPart (parts : Parts) (p : Nat) (f : List Elem → List Elem) : Parts :=
  modNth f p parts

/-- Text content of the text element at a location
(range.getElement().getText()). -/
def getTextAt (parts : Parts) : Loc → Option (List Char)
  | Loc.top p i =>
    (match elemAt parts p i with
     | some (Elem.para t) => some t
     | some (Elem.item _ t) => some t
     | _ => none)
  | Loc.inCell p i r c j =>
    (match elemAt parts p i with
     | some (Elem.table rows) =>
       (match nth rows r with
        | some row =>
          (match nth row c with
           | some cell => nth cell j
           | none => none)
        | none => none)
     | _ => none)

/-- Overwrite the text of the text element at a location, keeping the
element kind (and glyph) unchanged. -/
def setTextAt (parts : Parts) (loc : Loc) (t : List Char) : Parts :=
  match loc with
  | Loc.top p i =>
    modPart parts p (fun part =>
      match nth part i with
      | some (Elem.para _) => setNth part i (Elem.para t)
      | some (Elem.item g _) => setNth part i (Elem.item g t)
      | _ => part)
  | Loc.inCell p i r c j =>
    modPart parts p (fun part =>
      match nth part i with
      | some (Elem.table rows) =>
        setNth part i
          (Elem.table (modNth (fun row => modNth (fun cell => setNth cell j t) c row) r rows))
      | _ => part)

/-- One decomposed search result of MergeHelper.findAllTags: the array
[match, range, text1, tag, text2, opt, part] of the source, with the
range given by location and inclusive offsets. -/
structure TagMatch where
  full : List Char
  loc : Loc
  first : Nat
  last : Nat
  text1 : List Char
  tag : List Char
  text2 : List Char
  opt : Bool
  part : Nat
deriving DecidableEq, Repr

/-- Range decomposition, lines 76-102 of the source: take the matched
string, strip the outer brackets, split the remainder on the brackets,
and strip a trailing question mark from the tag name. -/
def decompRange (s : List Char) (r : Nat × Nat) :
    List Char × List Char × List Char × List Char × Bool :=
  let mtch := extract s r.1 r.2
  let inner := (mtch.drop 1).take (mtch.length - 2)
  let a := splitOnP isBr inner
  let a1 := (nth a 1).getD []
  let opt := a1.getLast? == some '?'
  let tag := if opt then a1.take (a1.length - 1) else a1
  (mtch, (nth a 0).getD [], tag, (nth a 2).getD [], opt)

/-- All decomposed tag matches of one text element. -/
def tagsOfText (loc : Loc) (p : Nat) (s : List Char) : List TagMatch :=
  (findAllRangesIn s).map fun r =>
    let d := decompRange s r
    { full := d.1, loc := loc, first := r.1, last := r.2,
      text1 := d.2.1, tag := d.2.2.1, text2 := d.2.2.2.1, opt := d.2.2.2.2,
      part := p }

/-! Enumeration of the text elements of a part in document order, the
order in which repeated findText calls visit them. -/

def cellParas (p i r c : Nat) : Nat → List (List Char) → List (Loc × List Char)
  | _, [] => []
  | j, t :: ts => (Loc.inCell p i r c j, t) :: cellParas p i r c (j + 1) ts

def rowCells (p i r : Nat) : Nat → List (List (List Char)) → List (Loc × List Char)
  | _, [] => []
  | c, cell :: cells => cellParas p i r c 0 cell ++ rowCells p i r (c + 1) cells

def tableRowsTexts (p i : Nat) : Nat → List (List (List (List Char))) → List (Loc × List Char)
  | _, [] => []
  | r, row :: rows => rowCells p i r 0 row ++ tableRowsTexts p i (r + 1) rows

def textElemsAux (p : Nat) : Nat → List Elem → List (Loc × List Char)
  | _, [] => []
  | i, Elem.para t :: rest => (Loc.top p i, t) :: textElemsAux p (i + 1) rest
  | i, Elem.item _ t :: rest => (Loc.top p i, t) :: textElemsAux p (i + 1) rest
  | i, Elem.table rows :: rest => tableRowsTexts p i 0 rows ++ textElemsAux p (i + 1) rest

/-- Embedding of MergeHelper.findAllTags over one document part. -/
def findAllTags (p : Nat) (part : List Elem) : List TagMatch :=
  (textElemsAux p 0 part).flatMap fun lt => tagsOfText lt.1 p lt.2

/-- The tag collection loop of merge, lines 117-126: all tags of all
parts, in part order. -/
def collectAux : Nat → List (List Elem) → List TagMatch
  | _, [] => []
  | p, part :: rest => findAllTags p part ++ collectAux (p + 1) rest

def collectTags (parts : Parts) : List TagMatch := collectAux 0 parts

/-! ## The substitution engine

merge(document, map), lines 115-265 of the source.  The processing of a
single tag (one iteration of the reverse loop) is split exactly along
the source code blocks:

- value resolution (lines 131-153): processTag;
- replacement edit and list-item expansion (lines 155-224): applyPhase;
- structural cleanup (lines 226-263): cleanupAt.
-/

/-- The label-to-value map.  JavaScript Map keys are unique; has and get
are association-list lookups. -/
abbrev FieldMap := List (List Char × List Char)

def mapHas (m : FieldMap) (k : List Char) : Bool :=
  m.any fun kv => kv.1 == k

def mapGet (m : FieldMap) (k : List Char) : List Char :=
  match m.find? (fun kv => kv.1 == k) with
  | some kv => kv.2
  | none => []

/-- Is the parent of the matched text a list item
(parent.getType() == DocumentApp.ElementType.LIST_ITEM)? -/
def isListItemAt (parts : Parts) : Loc → Bool
  | Loc.top p i =>
    (match elemAt parts p i with
     | some (Elem.item _ _) => true
     | _ => false)
  | Loc.inCell _ _ _ _ _ => false

/-- Would the replacement fill the whole containing element
(tags[t][0] == element.getText() and both wrapper runs empty)? -/
def isFullRepOf (element : List Char) (tg : TagMatch) : Bool :=
  tg.full == element && tg.text1.isEmpty && tg.text2.isEmpty

/-- The five-step splice of lines 199-209: delete the final bracket,
delete the tag plus the inner closing bracket, insert the value, delete
the second opening bracket, delete the first opening bracket. -/
def editSeq (element : List Char) (first last : Nat)
    (text1 text2 tagValue : List Char) : List Char :=
  let op_size := 1
  let tag_pos := first + op_size + text1.length + 1
  let s1 := deleteText element (last - op_size + 1) last
  let s2 := deleteText s1 tag_pos (last - op_size - text2.length)
  let s3 := insertText s2 tag_pos tagValue
  let s4 := deleteText s3 (tag_pos - op_size) (tag_pos - 1)
  deleteText s4 first (first + op_size - 1)

/-- Lines 215-224: part.getChildIndex(parent), then one
insertListItem(index, line).setGlyphType(glyph) per remaining line. -/
def insertNewItems (parts : Parts) (tg : TagMatch) (lines : List (List Char)) : Parts :=
  match tg.loc with
  | Loc.top p i =>
    (match elemAt parts p i with
     | some (Elem.item glyph _) =>
       modPart parts p fun part =>
         insertAllAt part (i + 1) (lines.map fun ln => Elem.item glyph ln)
     | _ => parts)
  | Loc.inCell _ _ _ _ _ => parts

/-- Lines 155-224: compute the replacement text, apply the splice (or
delete the whole matched span when the replacement is empty), and in the
new-items case create one sibling list item per extra line. -/
def applyPhase (parts : Parts) (tg : TagMatch) (tagValue0 : List Char) : Parts :=
  match getTextAt parts tg.loc with
  | none => parts
  | some element =>
    let isFullRep := isFullRepOf element tg
    let isItem := isListItemAt parts tg.loc
    let lines := splitOnP isNL tagValue0
    let isNewItemsCase := isItem && isFullRep && !lines.isEmpty
    let tagValue := if isNewItemsCase then lines.headD [] else tagValue0
    let replaceTxt := if tagValue.isEmpty then [] else tg.text1 ++ tagValue ++ tg.text2
    let parts1 := setTextAt parts tg.loc
      (if replaceTxt.isEmpty then deleteText element tg.first tg.last
       else editSeq element tg.first tg.last tg.text1 tg.text2 tagValue)
    if isNewItemsCase then insertNewItems parts1 tg (lines.drop 1) else parts1

/-- Lines 226-263: if the containing element is now empty, remove it
from its parent; if that parent is a table cell, and every cell of the
row is now empty, remove the whole row from the table. -/
def cleanupAt (parts : Parts) (loc : Loc) : Parts :=
  match getTextAt parts loc with
  | none => parts
  | some t =>
    if t.isEmpty then
      match loc with
      | Loc.top p i => modPart parts p fun part => eraseNth part i
      | Loc.inCell p i r c j =>
        let parts1 := modPart parts p fun part =>
          match nth part i with
          | some (Elem.table rows) =>
            setNth part i
              (Elem.table (modNth (fun row => modNth (fun cell => eraseNth cell j) c row) r rows))
          | _ => part
        (match elemAt parts1 p i with
         | some (Elem.table rows) =>
           (match nth rows r with
            | some row =>
              if row.all (fun cell => (joinNL cell).isEmpty) then
                modPart parts1 p fun part =>
                  match nth part i with
                  | some (Elem.table rows2) => setNth part i (Elem.table (eraseNth rows2 r))
                  | _ => part
              else parts1
            | none => parts1)
         | _ => parts1)
    else parts

/-- Process one tag with a resolved value: edit, then cleanup. -/
def processKnown (parts : Parts) (tg : TagMatch) (tagValue0 : List Char) : Parts :=
  cleanupAt (applyPhase parts tg tagValue0) tg.loc

/-- Lines 131-153, value resolution for one tag: a known tag uses the
map value, an unknown optional tag uses the empty string, an unknown
non-optional tag is skipped (continue). -/
def processTag (map : FieldMap) (parts : Parts) (tg : TagMatch) : Parts :=
  let tagIsKnown := mapHas map tg.tag
  if !tagIsKnown then
    (if tg.opt then processKnown parts tg [] else parts)
  else processKnown parts tg (mapGet map tg.tag)

/-- The reverse loop of lines 129-264: the head of the list is processed
last, so the textually last tag is mutated first. -/
def mergeLoop (map : FieldMap) : List TagMatch → Parts → Parts
  | [], parts => parts
  | tg :: rest, parts => processTag map (mergeLoop map rest parts) tg

/-- MergeHelper.merge: enumerate every tag of every part, then process
the whole sequence starting from the end. -/
def merge (map : FieldMap) (parts : Parts) : Parts :=
  mergeLoop map (collectTags parts) parts

example :
    merge [(strL "Name", strL "Bob")] [[Elem.para (strL "Hello <<Name>> World")]]
      = [[Elem.para (strL "Hello Bob World")]] := by decide

example :
    merge [] [[Elem.para (strL "x <Hi <X?> Bye> y")]]
      = [[Elem.para (strL "x  y")]] := by decide

example :
    merge [] [[Elem.para (strL "<<Unknown>>")]]
      = [[Elem.para (strL "<<Unknown>>")]] := by decide

example :
    merge [(strL "Field", strL "A\nB\nC")] [[Elem.item 7 (strL "<<Field>>")]]
      = [[Elem.item 7 (strL "A"), Elem.item 7 (strL "B"), Elem.item 7 (strL "C")]] := by
  decide

example :
    merge [(strL "F", [])]
      [[Elem.table [[[strL ""], [strL "<<F>>"], [strL ""]]], Elem.para (strL "z")]]
      = [[Elem.table [], Elem.para (strL "z")]] := by decide

example :
    merge [(strL "F", [])]
      [[Elem.table [[[strL "keep"], [strL "<<F>>"], [strL ""]]]]]
      = [[Elem.table [[[strL "keep"], [], [strL ""]]]]] := by decide

/-! ## List helper lemmas -/

theorem take_len_append (a b : List α) : (a ++ b).take a.length = a := by
  induction a with
  | nil => simp
  | cons x xs ih => simp [List.take, ih]

theorem drop_len_append (a b : List α) : (a ++ b).drop a.length = b := by
  induction a with
  | nil => simp
  | cons x xs ih => simp [List.drop, ih]

theorem take_len_add_append (a b : List α) (n : Nat) :
    (a ++ b).take (a.length + n) = a ++ b.take n := by
  induction a with
  | nil => simp
  | cons x xs ih => simp [List.take, Nat.succ_add, ih]

theorem drop_len_add_append (a b : List α) (n : Nat) :
    (a ++ b).drop (a.length + n) = b.drop n := by
  induction a with
  | nil => simp
  | cons x xs ih => simp [List.drop, Nat.succ_add, ih]

theorem nth_append_lt (a b : List α) (n : Nat) (h : n < a.length) :
    nth (a ++ b) n = nth a n := by
  induction a generalizing n with
  | nil => simp at h
  | cons x xs ih =>
    cases n with
    | zero => rfl
    | succ m => simpa [nth] using ih m (by simpa using Nat.lt_of_succ_lt_succ h)

theorem nth_len_append (a : List α) (b : List α) (n : Nat) :
    nth (a ++ b) (a.length + n) = nth b n := by
  induction a with
  | nil => simp
  | cons x xs ih => simpa [nth, Nat.succ_add] using ih

theorem nth_lt_length (l : List α) (n : Nat) (h : n < l.length) :
    ∃ x, nth l n = some x := by
  induction l generalizing n with
  | nil => simp at h
  | cons a l ih =>
    cases n with
    | zero => exact ⟨a, rfl⟩
    | succ m => exact ih m (Nat.lt_of_succ_lt_succ h)

theorem nth_some_lt (l : List α) (n : Nat) (x : α) (h : nth l n = some x) :
    n < l.length := by
  induction l generalizing n with
  | nil => simp [nth] at h
  | cons a l ih =>
    cases n with
    | zero => simp
    | succ m => exact Nat.succ_lt_succ (ih m h)

theorem nth_mem (l : List α) (n : Nat) (x : α) (h : nth l n = some x) : x ∈ l := by
  induction l generalizing n with
  | nil => simp [nth] at h
  | cons a l ih =>
    cases n with
    | zero => simp [nth] at h; simp [h]
    | succ m => exact List.mem_cons_of_mem a (ih m h)

theorem nth_setNth_self (l : List α) (n : Nat) (x : α) (h : n < l.length) :
    nth (setNth l n x) n = some x := by
  induction l generalizing n with
  | nil => simp at h
  | cons a l ih =>
    cases n with
    | zero => rfl
    | succ m => exact ih m (Nat.lt_of_succ_lt_succ h)

theorem nth_setNth_ne (l : List α) (n m : Nat) (x : α) (h : m ≠ n) :
    nth (setNth l n x) m = nth l m := by
  induction l generalizing n m with
  | nil => rfl
  | cons a l ih =>
    cases n with
    | zero =>
      cases m with
      | zero => exact absurd rfl h
      | succ k => rfl
    | succ n =>
      cases m with
      | zero => rfl
      | succ k => exact ih n k (fun hk => h (by simp [hk]))

theorem length_setNth (l : List α) (n : Nat) (x : α) :
    (setNth l n x).length = l.length := by
  induction l generalizing n with
  | nil => rfl
  | cons a l ih =>
    cases n with
    | zero => rfl
    | succ m => simp [setNth, ih]

theorem nth_modNth_self (f : α → α) (l : List α) (n : Nat) (x : α)
    (h : nth l n = some x) : nth (modNth f n l) n = some (f x) := by
  induction l generalizing n with
  | nil => cases n <;> simp [nth] at h
  | cons a l ih =>
    cases n with
    | zero => simp [nth] at h; simp [modNth, nth, h]
    | succ m => exact ih m h

theorem nth_modNth_ne (f : α → α) (l : List α) (n m : Nat) (h : m ≠ n) :
    nth (modNth f n l) m = nth l m := by
  induction l generalizing n m with
  | nil => cases n <;> rfl
  | cons a l ih =>
    cases n with
    | zero =>
      cases m with
      | zero => exact absurd rfl h
      | succ k => rfl
    | succ n =>
      cases m with
      | zero => rfl
      | succ k => exact ih n k (fun hk => h (by simp [hk]))

theorem nth_eraseNth_lt (l : List α) (n m : Nat) (h : m < n) :
    nth (eraseNth l n) m = nth l m := by
  induction l generalizing n m with
  | nil => rfl
  | cons a l ih =>
    cases n with
    | zero => simp at h
    | succ n =>
      cases m with
      | zero => rfl
      | succ k => exact ih n k (Nat.lt_of_succ_lt_succ h)

theorem nth_eraseNth_ge (l : List α) (n m : Nat) (hn : n < l.length) (h : n ≤ m) :
    nth (eraseNth l n) m = nth l (m + 1) := by
  induction l generalizing n m with
  | nil => simp at hn
  | cons a l ih =>
    cases n with
    | zero => cases m <;> rfl
    | succ n =>
      cases m with
      | zero => simp at h
      | succ k =>
        simpa [eraseNth, nth] using ih n k (Nat.lt_of_succ_lt_succ hn) (Nat.le_of_succ_le_succ h)

theorem length_eraseNth (l : List α) (n : Nat) (h : n < l.length) :
    (eraseNth l n).length + 1 = l.length := by
  induction l generalizing n with
  | nil => simp at h
  | cons a l ih =>
    cases n with
    | zero => rfl
    | succ m => simpa [eraseNth] using ih m (Nat.lt_of_succ_lt_succ h)

theorem nth_insertAllAt_lt (l : List α) (k : Nat) (xs : List α) (m : Nat)
    (hm : m < k) (hk : k ≤ l.length) : nth (insertAllAt l k xs) m = nth l m := by
  have h1 : nth (l.take k ++ (xs ++ l.drop k)) m = nth (l.take k) m := by
    apply nth_append_lt
    simpa [List.length_take, Nat.lt_min] using ⟨hm, Nat.lt_of_lt_of_le hm hk⟩
  have h2 : nth (l.take k) m = nth l m := by
    clear h1
    induction l generalizing k m with
    | nil => simp [List.take]
    | cons a l ih =>
      cases k with
      | zero => simp at hm
      | succ k =>
        cases m with
        | zero => rfl
        | succ j =>
          exact ih k j (Nat.lt_of_succ_lt_succ hm) (Nat.le_of_succ_le_succ hk)
  simpa [insertAllAt, List.append_assoc] using h1.trans h2

theorem length_insertAllAt (l : List α) (k : Nat) (xs : List α) (hk : k ≤ l.length) :
    (insertAllAt l k xs).length = l.length + xs.length := by
  simp [insertAllAt, List.length_append, List.length_take, List.length_drop,
    Nat.min_eq_left hk]
  omega

/-! ## Splice lemmas

The matched construct <text1<tagSpec>text2> written as a character list.
-/

def fullCh (text1 spec text2 : List Char) : List Char :=
  '<' :: text1 ++ '<' :: spec ++ '>' :: text2 ++ ['>']

theorem length_fullCh (text1 spec text2 : List Char) :
    (fullCh text1 spec text2).length = text1.length + spec.length + text2.length + 4 := by
  simp [fullCh]; omega

theorem deleteText_mid (A B C : List Char) (a b : Nat)
    (ha : a = A.length) (hb : b + 1 = A.length + B.length) :
    deleteText (A ++ B ++ C) a b = A ++ C := by
  subst ha
  unfold deleteText
  have h1 : (A ++ B ++ C).take A.length = A := by
    rw [List.append_assoc]; exact take_len_append A (B ++ C)
  have h2 : (A ++ B ++ C).drop (b + 1) = C := by
    rw [hb, ← List.length_append A B]; exact drop_len_append (A ++ B) C
  rw [h1, h2]

theorem insertText_mid (A B : List Char) (a : Nat) (ha : a = A.length) (v : List Char) :
    insertText (A ++ B) a v = A ++ v ++ B := by
  subst ha
  unfold insertText
  rw [take_len_append, drop_len_append, List.append_assoc]

/-- The five splice steps of lines 199-209 rewrite
before ++ <text1<spec>text2> ++ after into before ++ text1 ++ v ++ text2 ++ after. -/
theorem editSeq_correct (before text1 spec text2 after v : List Char)
    (first last : Nat) (hf : first = before.length)
    (hl : last + 1 = first + (fullCh text1 spec text2).length) :
    editSeq (before ++ fullCh text1 spec text2 ++ after) first last text1 text2 v
      = before ++ text1 ++ v ++ text2 ++ after := by
  have hlast : last = before.length + text1.length + spec.length + text2.length + 3 := by
    rw [length_fullCh] at hl; omega
  unfold editSeq
  simp only []
  have e0 : before ++ fullCh text1 spec text2 ++ after
      = (before ++ '<' :: text1 ++ '<' :: spec ++ '>' :: text2) ++ ['>'] ++ after := by
    simp [fullCh]
  have h1 : deleteText (before ++ fullCh text1 spec text2 ++ after)
      (last - 1 + 1) last
      = (before ++ '<' :: text1 ++ '<' :: spec ++ '>' :: text2) ++ after := by
    rw [e0]
    apply deleteText_mid
    · simp; omega
    · simp; omega
  rw [h1]
  have e1 : (before ++ '<' :: text1 ++ '<' :: spec ++ '>' :: text2) ++ after
      = (before ++ '<' :: text1 ++ ['<']) ++ (spec ++ ['>']) ++ (text2 ++ after) := by
    simp
  have h2 : deleteText ((before ++ '<' :: text1 ++ '<' :: spec ++ '>' :: text2) ++ after)
      (first + 1 + text1.length + 1) (last - 1 - text2.length)
      = (before ++ '<' :: text1 ++ ['<']) ++ (text2 ++ after) := by
    rw [e1]
    apply deleteText_mid
    · simp; omega
    · simp; omega
  rw [h2]
  have h3 : insertText ((before ++ '<' :: text1 ++ ['<']) ++ (text2 ++ after))
      (first + 1 + text1.length + 1) v
      = (before ++ '<' :: text1 ++ ['<']) ++ v ++ (text2 ++ after) := by
    apply insertText_mid
    simp; omega
  rw [h3]
  have e2 : (before ++ '<' :: text1 ++ ['<']) ++ v ++ (text2 ++ after)
      = (before ++ '<' :: text1) ++ ['<'] ++ (v ++ text2 ++ after) := by
    simp
  have h4 : deleteText ((before ++ '<' :: text1 ++ ['<']) ++ v ++ (text2 ++ after))
      (first + 1 + text1.length + 1 - 1) (first + 1 + text1.length + 1 - 1)
      = (before ++ '<' :: text1) ++ (v ++ text2 ++ after) := by
    rw [e2]
    apply deleteText_mid
    · simp; omega
    · simp; omega
  rw [h4]
  have e3 : (before ++ '<' :: text1) ++ (v ++ text2 ++ after)
      = before ++ ['<'] ++ (text1 ++ v ++ text2 ++ after) := by
    simp
  have h5 : deleteText ((before ++ '<' :: text1) ++ (v ++ text2 ++ after))
      first (first + 1 - 1)
      = before ++ (text1 ++ v ++ text2 ++ after) := by
    rw [e3]
    apply deleteText_mid
    · omega
    · simp; omega
  rw [h5]
  simp

/-- When the replacement text is empty the whole matched span is
deleted: deleteText(first, last) removes the construct. -/
theorem deleteText_whole (before mid after : List Char) (first last : Nat)
    (hf : first = before.length) (hl : last + 1 = first + mid.length) :
    deleteText (before ++ mid ++ after) first last = before ++ after := by
  exact deleteText_mid before mid after first last hf (by omega)

/-! ## Scanner soundness -/

theorem takeWhile_stop (p : α → Bool) (a : List α) (x : α) (b : List α)
    (ha : ∀ c ∈ a, p c = true) (hx : p x = false) :
    (a ++ x :: b).takeWhile p = a := by
  induction a with
  | nil => simp [List.takeWhile, hx]
  | cons y ys ih =>
    have hy : p y = true := ha y (by simp)
    simp [List.takeWhile, hy]
    exact ih fun c hc => ha c (by simp [hc])

theorem dropWhile_stop (p : α → Bool) (a : List α) (x : α) (b : List α)
    (ha : ∀ c ∈ a, p c = true) (hx : p x = false) :
    (a ++ x :: b).dropWhile p = x :: b := by
  induction a with
  | nil => simp [List.dropWhile, hx]
  | cons y ys ih =>
    have hy : p y = true := ha y (by simp)
    simp [List.dropWhile, hy]
    exact ih fun c hc => ha c (by simp [hc])

theorem parseTail_sound (base : Nat) (s3 : List Char) (len : Nat)
    (h : parseTail base s3 = some len) :
    ∃ r3 rest, s3 = r3 ++ '>' :: rest ∧ (∀ c ∈ r3, isPS c = true) ∧
      len = base + r3.length := by
  unfold parseTail at h
  split at h
  next tl heq =>
    refine ⟨s3.takeWhile isPS, tl, ?_, fun c hc => List.mem_takeWhile_imp hc, ?_⟩
    · conv_lhs => rw [← List.takeWhile_append_dropWhile isPS s3]
      rw [heq]
    · simpa using h.symm
  next => exact absurd h (by simp)

/-- Soundness of the pattern matcher: a match of length len is exactly a
tag construct followed by the rest of the text. -/
theorem parseTag_sound (s : List Char) (len : Nat) (h : parseTag s = some len) :
    ∃ t1 r2 q t2 rest,
      s = fullCh t1 (r2 ++ q) t2 ++ rest ∧
      len = (fullCh t1 (r2 ++ q) t2).length ∧
      (q = [] ∨ q = ['?']) ∧ r2 ≠ [] ∧
      (∀ c ∈ t1, isPS c = true) ∧ (∀ c ∈ r2, isTC c = true) ∧
      (∀ c ∈ t2, isPS c = true) := by
  unfold parseTag at h
  split at h
  next s1 =>
    split at h
    next s2 heq1 =>
      have hs1 : s1 = s1.takeWhile isPS ++ '<' :: s2 := by
        conv_lhs => rw [← List.takeWhile_append_dropWhile isPS s1]
        rw [heq1]
      split at h
      next s3 heq2 =>
        -- the optional question mark is present
        cases hemp : (s2.takeWhile isTC).isEmpty with
        | true => simp [hemp] at h
        | false =>
          simp only [hemp, Bool.false_eq_true, if_false] at h
          obtain ⟨r3, rest, hs3, hr3, hlen⟩ := parseTail_sound _ _ _ h
          have hs2 : s2 = s2.takeWhile isTC ++ '?' :: '>' :: s3 := by
            conv_lhs => rw [← List.takeWhile_append_dropWhile isTC s2]
            rw [heq2]
          refine ⟨s1.takeWhile isPS, s2.takeWhile isTC, ['?'], r3, rest, ?_, ?_,
            Or.inr rfl, by simpa [List.isEmpty_iff] using hemp, fun c hc => List.mem_takeWhile_imp hc,
            fun c hc => List.mem_takeWhile_imp hc, hr3⟩
          · conv_lhs => rw [hs1, hs2, hs3]
            simp [fullCh]
          · rw [hlen, length_fullCh]; simp; omega
      next s3 heq2 =>
        -- no question mark
        cases hemp : (s2.takeWhile isTC).isEmpty with
        | true => simp [hemp] at h
        | false =>
          simp only [hemp, Bool.false_eq_true, if_false] at h
          obtain ⟨r3, rest, hs3, hr3, hlen⟩ := parseTail_sound _ _ _ h
          have hs2 : s2 = s2.takeWhile isTC ++ '>' :: s3 := by
            conv_lhs => rw [← List.takeWhile_append_dropWhile isTC s2]
            rw [heq2]
          refine ⟨s1.takeWhile isPS, s2.takeWhile isTC, [], r3, rest, ?_, ?_,
            Or.inl rfl, by simpa [List.isEmpty_iff] using hemp, fun c hc => List.mem_takeWhile_imp hc,
            fun c hc => List.mem_takeWhile_imp hc, hr3⟩
          · conv_lhs => rw [hs1, hs2, hs3]
            simp [fullCh]
          · rw [hlen, length_fullCh]; simp; omega
      next => exact absurd h (by simp)
    next => exact absurd h (by simp)
  next => exact absurd h (by simp)

/-- Completeness of the pattern matcher: a well-formed construct at the
head of the text is matched, with the match covering exactly the
construct. -/
theorem parseTag_complete (t1 r2 q t2 rest : List Char)
    (h1 : ∀ c ∈ t1, isPS c = true) (h2 : ∀ c ∈ r2, isTC c = true)
    (h3 : ∀ c ∈ t2, isPS c = true) (hq : q = [] ∨ q = ['?']) (hr2 : r2 ≠ []) :
    parseTag (fullCh t1 (r2 ++ q) t2 ++ rest)
      = some (fullCh t1 (r2 ++ q) t2).length := by
  have hemp : r2.isEmpty = false := by
    cases r2 with
    | nil => exact absurd rfl hr2
    | cons a l => rfl
  rcases hq with hq | hq <;> subst hq
  · have key : parseTag (fullCh t1 (r2 ++ []) t2 ++ rest)
        = some (4 + t1.length + r2.length + t2.length) := by
      have hS : fullCh t1 (r2 ++ []) t2 ++ rest
          = '<' :: (t1 ++ '<' :: (r2 ++ '>' :: (t2 ++ '>' :: rest))) := by
        simp [fullCh]
      rw [hS]
      simp only [parseTag]
      rw [takeWhile_stop isPS t1 '<' _ h1 (by decide),
        dropWhile_stop isPS t1 '<' _ h1 (by decide)]
      simp only []
      rw [takeWhile_stop isTC r2 '>' _ h2 (by decide),
        dropWhile_stop isTC r2 '>' _ h2 (by decide)]
      simp only [hemp, Bool.false_eq_true, if_false]
      simp only [parseTail]
      rw [takeWhile_stop isPS t2 '>' _ h3 (by decide),
        dropWhile_stop isPS t2 '>' _ h3 (by decide)]
      rfl
    rw [key, length_fullCh]
    exact congrArg some (by simp; omega)
  · have key : parseTag (fullCh t1 (r2 ++ ['?']) t2 ++ rest)
        = some (5 + t1.length + r2.length + t2.length) := by
      have hS : fullCh t1 (r2 ++ ['?']) t2 ++ rest
          = '<' :: (t1 ++ '<' :: (r2 ++ '?' :: '>' :: (t2 ++ '>' :: rest))) := by
        simp [fullCh]
      rw [hS]
      simp only [parseTag]
      rw [takeWhile_stop isPS t1 '<' _ h1 (by decide),
        dropWhile_stop isPS t1 '<' _ h1 (by decide)]
      simp only []
      rw [takeWhile_stop isTC r2 '?' _ h2 (by decide),
        dropWhile_stop isTC r2 '?' _ h2 (by decide)]
      simp only [hemp, Bool.false_eq_true, if_false]
      simp only [parseTail]
      rw [takeWhile_stop isPS t2 '>' _ h3 (by decide),
        dropWhile_stop isPS t2 '>' _ h3 (by decide)]
      rfl
    rw [key, length_fullCh]
    exact congrArg some (by simp; omega)

/-- A text with no bracket characters. -/
def cleanTxt (s : List Char) : Prop := ∀ c ∈ s, isBr c = false

instance (s : List Char) : Decidable (cleanTxt s) := by
  unfold cleanTxt; infer_instance

theorem parseTag_head (s : List Char) (len : Nat) (h : parseTag s = some len) :
    ∃ tl, s = '<' :: tl := by
  obtain ⟨t1, r2, q, t2, rest, hs, -⟩ := parseTag_sound s len h
  refine ⟨t1 ++ '<' :: (r2 ++ q) ++ '>' :: t2 ++ '>' :: rest, ?_⟩
  rw [hs]; simp [fullCh]

theorem parseTag_len_lower (s : List Char) (len : Nat) (h : parseTag s = some len) :
    5 ≤ len := by
  obtain ⟨t1, r2, q, t2, rest, -, hlen, -, hr2, -⟩ := parseTag_sound s len h
  rw [hlen, length_fullCh]
  have : 1 ≤ r2.length := by
    cases r2 with
    | nil => exact absurd rfl hr2
    | cons a l => simp
  simp; omega

theorem parseTag_clean_none (s : List Char) (h : cleanTxt s) : parseTag s = none := by
  cases hp : parseTag s with
  | none => rfl
  | some len =>
    obtain ⟨tl, htl⟩ := parseTag_head s len hp
    have : isBr '<' = false := h '<' (by rw [htl]; simp)
    simp [isBr] at this

theorem cleanTxt_drop (s : List Char) (p : Nat) (h : cleanTxt s) :
    cleanTxt (s.drop p) := fun c hc => h c (List.mem_of_mem_drop hc)

theorem scanAux_clean (s : List Char) (h : cleanTxt s) (fuel p : Nat) :
    scanAux s fuel p = [] := by
  induction fuel generalizing p with
  | zero => rfl
  | succ fuel ih =>
    unfold scanAux
    rw [parseTag_clean_none _ (cleanTxt_drop s p h)]
    simp only []
    split
    · exact ih (p + 1)
    · rfl

theorem scanAux_ge (s : List Char) (fuel p : Nat) (h : s.length ≤ p) :
    scanAux s fuel p = [] := by
  cases fuel with
  | zero => rfl
  | succ fuel =>
    unfold scanAux
    rw [List.drop_eq_nil_of_le h]
    have : parseTag [] = none := rfl
    rw [this]
    simp [Nat.not_lt_of_le h]

/-- Every reported range lies at or after the scan position, and its end
offset is derived from a successful match at its start offset. -/
theorem scanAux_sound (s : List Char) (fuel p : Nat) (st e : Nat)
    (h : (st, e) ∈ scanAux s fuel p) :
    p ≤ st ∧ ∃ len, parseTag (s.drop st) = some len ∧ e = st + len - 1 := by
  induction fuel generalizing p with
  | zero => simp [scanAux] at h
  | succ fuel ih =>
    unfold scanAux at h
    split at h
    next len hp =>
      rcases List.mem_cons.mp h with heq | hmem
      · have h1 : st = p := congrArg Prod.fst heq
        have h2 : e = p + len - 1 := congrArg Prod.snd heq
        subst h1; subst h2
        exact ⟨Nat.le_refl _, len, hp, rfl⟩
      · obtain ⟨hle, len2, hp2, he2⟩ := ih (p + len) hmem
        have := parseTag_len_lower _ _ hp
        exact ⟨by omega, len2, hp2, he2⟩
    next =>
      split at h
      · obtain ⟨hle, hrest⟩ := ih (p + 1) h
        exact ⟨by omega, hrest⟩
      · simp at h

/-- Ranges are reported strictly left to right and never overlap: each
range ends before the next one starts. -/
theorem scanAux_pairwise (s : List Char) (fuel p : Nat) :
    List.Pairwise (fun a b => a.2 < b.1) (scanAux s fuel p) := by
  induction fuel generalizing p with
  | zero => exact List.Pairwise.nil
  | succ fuel ih =>
    unfold scanAux
    split
    next len hp =>
      refine List.pairwise_cons.mpr ⟨?_, ih (p + len)⟩
      intro b hb
      obtain ⟨hle, -⟩ := scanAux_sound s fuel (p + len) b.1 b.2 (by simpa using hb)
      have := parseTag_len_lower _ _ hp
      simp
      omega
    next =>
      split
      · exact ih (p + 1)
      · exact List.Pairwise.nil

theorem range_first_le_last (s : List Char) (fuel p : Nat) (st e : Nat)
    (h : (st, e) ∈ scanAux s fuel p) : st ≤ e := by
  obtain ⟨-, len, hp, he⟩ := scanAux_sound s fuel p st e h
  have := parseTag_len_lower _ _ hp
  omega

/-- A text that is one whole tag construct yields exactly one range,
covering the whole text. -/
theorem scan_construct (s : List Char) (h : parseTag s = some s.length) :
    findAllRangesIn s = [(0, s.length - 1)] := by
  unfold findAllRangesIn
  have h5 := parseTag_len_lower _ _ h
  show scanAux s (s.length + 1) 0 = _
  unfold scanAux
  simp only [List.drop_zero]
  rw [h]
  simp only [Nat.zero_add]
  rw [scanAux_ge s s.length s.length (Nat.le_refl _)]

/-! ## Decomposition of a matched range -/

theorem splitOnP_ne_nil (p : Char → Bool) (s : List Char) : splitOnP p s ≠ [] := by
  cases s with
  | nil => simp [splitOnP]
  | cons c cs =>
    unfold splitOnP
    split
    · simp
    · split
      · simp
      · simp

theorem splitOnP_no_sep (p : Char → Bool) (s : List Char)
    (h : ∀ c ∈ s, p c = false) : splitOnP p s = [s] := by
  induction s with
  | nil => rfl
  | cons c cs ih =>
    have hc : p c = false := h c (by simp)
    unfold splitOnP
    rw [hc]
    simp only [Bool.false_eq_true, if_false]
    rw [ih fun d hd => h d (by simp [hd])]

theorem splitOnP_sep_first (p : Char → Bool) (a : List Char) (x : Char) (t : List Char)
    (ha : ∀ c ∈ a, p c = false) (hx : p x = true) :
    splitOnP p (a ++ x :: t) = a :: splitOnP p t := by
  induction a with
  | nil => simp [splitOnP, hx]
  | cons c cs ih =>
    have hc : p c = false := ha c (by simp)
    have ih' := ih fun d hd => ha d (by simp [hd])
    have step1 : splitOnP p ((c :: cs) ++ x :: t)
        = (match splitOnP p (cs ++ x :: t) with
           | [] => [[c]]
           | g :: gs => (c :: g) :: gs) := by
      rw [List.cons_append]
      conv_lhs => unfold splitOnP
      rw [hc]
      simp
    rw [step1, ih']

theorem splitOnP_singleton (p : Char → Bool) (s x : List Char)
    (h : splitOnP p s = [x]) : s = x := by
  induction s generalizing x with
  | nil => simpa [splitOnP] using h.symm
  | cons c cs ih =>
    unfold splitOnP at h
    split at h
    · simp at h
      exact absurd h.2 (splitOnP_ne_nil p cs)
    · revert h
      split
      next hnil => exact absurd hnil (splitOnP_ne_nil p cs)
      next g gs hg =>
        intro h
        injection h with h1 h2
        have hcs : cs = g := ih g (by rw [hg, h2])
        rw [← h1, hcs]

theorem splitOnP_chunk_sub (p : Char → Bool) (s g : List Char)
    (hg : g ∈ splitOnP p s) (c : Char) (hc : c ∈ g) : c ∈ s := by
  induction s generalizing g with
  | nil =>
    simp [splitOnP] at hg
    rw [hg] at hc
    simp at hc
  | cons d ds ih =>
    unfold splitOnP at hg
    split at hg
    · rcases List.mem_cons.mp hg with h | h
      · rw [h] at hc; simp at hc
      · exact List.mem_cons_of_mem d (ih g h hc)
    · revert hg
      split
      next hnil => exact absurd hnil (splitOnP_ne_nil p ds)
      next g2 gs2 hg2 =>
        intro hg
        rcases List.mem_cons.mp hg with h | h
        · rw [h] at hc
          rcases List.mem_cons.mp hc with h2 | h2
          · simp [h2]
          · exact List.mem_cons_of_mem d (ih g2 (by rw [hg2]; simp) h2)
        · exact List.mem_cons_of_mem d (ih g (by rw [hg2]; simp [h]) hc)

theorem isBr_of_isPS (c : Char) (h : isPS c = true) : isBr c = false := by
  simp only [isPS, Bool.and_eq_true, bne_iff_ne] at h
  simp [isBr, h.1, h.2]

theorem isBr_of_isTC (c : Char) (h : isTC c = true) : isBr c = false := by
  simp only [isTC, Bool.and_eq_true, bne_iff_ne] at h
  simp [isBr, h.1.1, h.1.2]

theorem ne_q_of_isTC (c : Char) (h : isTC c = true) : c ≠ '?' := by
  simp only [isTC, Bool.and_eq_true, bne_iff_ne] at h
  exact h.2

theorem getLast?_mem_own (l : List α) (a : α) (h : l.getLast? = some a) : a ∈ l := by
  induction l with
  | nil => simp at h
  | cons b l ih =>
    cases l with
    | nil => simp at h; simp [h]
    | cons c t =>
      rw [List.getLast?_cons_cons] at h
      exact List.mem_cons_of_mem b (ih h)

theorem getLast?_concat_own (l : List α) (a : α) : (l ++ [a]).getLast? = some a := by
  induction l with
  | nil => rfl
  | cons b l ih =>
    cases l with
    | nil => rfl
    | cons c t =>
      show (b :: c :: (t ++ [a])).getLast? = some a
      rw [List.getLast?_cons_cons]
      exact ih

/-- Decomposing a matched construct recovers its parts: the wrapper runs
become text1 and text2, and a trailing question mark on the tag spec is
stripped into the optional flag. -/
theorem decomp_construct (s : List Char) (st e : Nat) (t1 r2 q t2 : List Char)
    (hx : extract s st e = fullCh t1 (r2 ++ q) t2)
    (h1 : ∀ c ∈ t1, isPS c = true) (h2 : ∀ c ∈ r2, isTC c = true)
    (h3 : ∀ c ∈ t2, isPS c = true) (hq : q = [] ∨ q = ['?']) (hr2 : r2 ≠ []) :
    decompRange s (st, e) = (fullCh t1 (r2 ++ q) t2, t1, r2, t2, !q.isEmpty) := by
  have hinner : ((fullCh t1 (r2 ++ q) t2).drop 1).take ((fullCh t1 (r2 ++ q) t2).length - 2)
      = t1 ++ '<' :: ((r2 ++ q) ++ '>' :: t2) := by
    have hd : (fullCh t1 (r2 ++ q) t2).drop 1
        = (t1 ++ '<' :: ((r2 ++ q) ++ '>' :: t2)) ++ ['>'] := by
      simp [fullCh]
    rw [hd, length_fullCh]
    have hlen2 : t1.length + (r2 ++ q).length + t2.length + 4 - 2
        = (t1 ++ '<' :: ((r2 ++ q) ++ '>' :: t2)).length := by
      simp; omega
    rw [hlen2, take_len_append]
  have hclean2 : ∀ c ∈ r2 ++ q, isBr c = false := by
    intro c hc
    rcases List.mem_append.mp hc with h | h
    · exact isBr_of_isTC c (h2 c h)
    · rcases hq with hq2 | hq2
      · rw [hq2] at h; simp at h
      · rw [hq2] at h; simp at h; rw [h]; decide
  have hsplit : splitOnP isBr (t1 ++ '<' :: ((r2 ++ q) ++ '>' :: t2)) = [t1, r2 ++ q, t2] := by
    rw [splitOnP_sep_first isBr t1 '<' _ (fun c hc => isBr_of_isPS c (h1 c hc)) (by decide),
      splitOnP_sep_first isBr (r2 ++ q) '>' _ hclean2 (by decide),
      splitOnP_no_sep isBr t2 (fun c hc => isBr_of_isPS c (h3 c hc))]
  have hlast : ((r2 ++ q).getLast? == some '?') = !q.isEmpty := by
    rcases hq with hq2 | hq2 <;> subst hq2
    · simp only [List.append_nil, List.isEmpty_nil, Bool.not_true]
      cases hl : r2.getLast? with
      | none => rfl
      | some c =>
        have hc := ne_q_of_isTC c (h2 c (getLast?_mem_own r2 c hl))
        simp [hc]
    · rw [getLast?_concat_own r2 '?']
      rfl
  have htag : (if ((r2 ++ q).getLast? == some '?') = true
      then (r2 ++ q).take ((r2 ++ q).length - 1) else (r2 ++ q)) = r2 := by
    rcases hq with hq2 | hq2 <;> subst hq2
    · rw [hlast]; simp
    · rw [hlast]
      have hlen1 : (r2 ++ ['?']).length - 1 = r2.length := by simp
      simp [hlen1, take_len_append r2]
  unfold decompRange
  simp only []
  rw [hx, hinner, hsplit]
  simp only [nth, Option.getD_some]
  rw [htag, hlast]

/-- Every tag match produced by the scanner decomposes its container
text into a prefix, the matched construct, and a suffix, and its fields
are exactly the parts of the construct. -/
theorem tagsOfText_shape (loc : Loc) (p : Nat) (s : List Char) (tg : TagMatch)
    (h : tg ∈ tagsOfText loc p s) :
    ∃ before after q,
      s = before ++ tg.full ++ after ∧
      tg.first = before.length ∧
      tg.last + 1 = tg.first + tg.full.length ∧
      tg.full = fullCh tg.text1 (tg.tag ++ q) tg.text2 ∧
      (q = [] ∨ q = ['?']) ∧ tg.opt = !q.isEmpty ∧
      tg.tag ≠ [] ∧
      (∀ c ∈ tg.text1, isPS c = true) ∧ (∀ c ∈ tg.tag, isTC c = true) ∧
      (∀ c ∈ tg.text2, isPS c = true) ∧
      tg.loc = loc ∧ tg.part = p := by
  unfold tagsOfText at h
  obtain ⟨r, hr, heq⟩ := List.mem_map.mp h
  obtain ⟨st, e⟩ := r
  obtain ⟨-, len, hp, he⟩ := scanAux_sound s (s.length + 1) 0 st e hr
  obtain ⟨t1, r2, q, t2, rest, hdrop, hlen, hq, hr2, hc1, hc2, hc3⟩ := parseTag_sound _ _ hp
  have hL5 : 5 ≤ (fullCh t1 (r2 ++ q) t2).length := by
    rw [length_fullCh]
    have : 1 ≤ r2.length := by
      cases r2 with
      | nil => exact absurd rfl hr2
      | cons a l => simp
    simp; omega
  have hstle : st ≤ s.length := by
    have hlen2 := congrArg List.length hdrop
    rw [List.length_drop, List.length_append] at hlen2
    omega
  have hx : extract s st e = fullCh t1 (r2 ++ q) t2 := by
    unfold extract
    rw [hdrop]
    have h1 : e + 1 - st = (fullCh t1 (r2 ++ q) t2).length := by omega
    rw [h1, take_len_append]
  have hd := decomp_construct s st e t1 r2 q t2 hx hc1 hc2 hc3 hq hr2
  refine ⟨s.take st, rest, q, ?_⟩
  rw [← heq]
  simp only [hd]
  refine ⟨?_, ?_, ?_, trivial, hq, trivial, hr2, hc1, hc2, hc3, trivial, trivial⟩
  · conv_lhs => rw [← List.take_append_drop st s]
    rw [hdrop]
    simp
  · rw [List.length_take, Nat.min_eq_left hstle]
  · omega

/-! ## State update lemmas -/

theorem modNth_congr_id (f : α → α) (n : Nat) (l : List α) (h : ∀ x, f x = x) :
    modNth f n l = l := by
  induction l generalizing n with
  | nil => cases n <;> rfl
  | cons a t ih =>
    cases n with
    | zero => simp [modNth, h a]
    | succ m => simp [modNth, ih m]

theorem getTextAt_set_self (parts : Parts) (loc : Loc) (el t : List Char)
    (h : getTextAt parts loc = some el) :
    getTextAt (setTextAt parts loc t) loc = some t := by
  cases loc with
  | top p i =>
    cases hp : nth parts p with
    | none => simp [getTextAt, elemAt, hp] at h
    | some part =>
      cases hi : nth part i with
      | none => simp [getTextAt, elemAt, hp, hi] at h
      | some e =>
        have hlt : i < part.length := nth_some_lt part i e hi
        cases e with
        | para t0 =>
          simp only [getTextAt, setTextAt, elemAt, modPart]
          rw [nth_modNth_self _ parts p part hp]
          simp only [hi]
          rw [nth_setNth_self part i _ hlt]
        | item g t0 =>
          simp only [getTextAt, setTextAt, elemAt, modPart]
          rw [nth_modNth_self _ parts p part hp]
          simp only [hi]
          rw [nth_setNth_self part i _ hlt]
        | table rows => simp [getTextAt, elemAt, hp, hi] at h
  | inCell p i r c j =>
    cases hp : nth parts p with
    | none => simp [getTextAt, elemAt, hp] at h
    | some part =>
      cases hi : nth part i with
      | none => simp [getTextAt, elemAt, hp, hi] at h
      | some e =>
        have hlt : i < part.length := nth_some_lt part i e hi
        cases e with
        | para t0 => simp [getTextAt, elemAt, hp, hi] at h
        | item g t0 => simp [getTextAt, elemAt, hp, hi] at h
        | table rows =>
          cases hr : nth rows r with
          | none => simp [getTextAt, elemAt, hp, hi, hr] at h
          | some row =>
            cases hc : nth row c with
            | none => simp [getTextAt, elemAt, hp, hi, hr, hc] at h
            | some cell =>
              have hj : nth cell j = some el := by
                simpa [getTextAt, elemAt, hp, hi, hr, hc] using h
              have hjlt : j < cell.length := nth_some_lt cell j el hj
              simp only [getTextAt, setTextAt, elemAt, modPart]
              rw [nth_modNth_self _ parts p part hp]
              simp only [hi]
              rw [nth_setNth_self part i _ hlt]
              simp only []
              rw [nth_modNth_self _ rows r row hr]
              simp only []
              rw [nth_modNth_self _ row c cell hc]
              exact nth_setNth_self cell j t hjlt

theorem insertNewItems_nil (parts : Parts) (tg : TagMatch) :
    insertNewItems parts tg [] = parts := by
  unfold insertNewItems
  cases tg.loc with
  | top p i =>
    simp only []
    cases he : elemAt parts p i with
    | none => rfl
    | some e =>
      cases e with
      | para t => rfl
      | item g t =>
        simp only [List.map_nil]
        apply modNth_congr_id
        intro part
        simp [insertAllAt]
      | table rows => rfl
  | inCell p i r c j => rfl

theorem cleanupAt_nonempty (parts : Parts) (loc : Loc) (t : List Char)
    (h : getTextAt parts loc = some t) (hne : t ≠ []) :
    cleanupAt parts loc = parts := by
  unfold cleanupAt
  rw [h]
  simp only []
  rw [if_neg]
  simp [List.isEmpty_iff, hne]

theorem splitOnP_self_single (p : Char → Bool) (v : List Char)
    (h : ∀ c ∈ v, p c = false) :
    (splitOnP p v).headD [] = v ∧ (splitOnP p v).drop 1 = [] := by
  rw [splitOnP_no_sep p v h]
  exact ⟨rfl, rfl⟩

/-! ## Behavior of the apply phase -/

/-- The tag spec as it appears between the inner brackets: the tag name
followed by a question mark when the tag is optional. -/
def specOf (tg : TagMatch) : List Char :=
  tg.tag ++ (if tg.opt then ['?'] else [])

/-- A tag match that is consistent with the current document state: the
container text splits into a prefix, the matched construct and a suffix
at the recorded offsets, and the match fields decompose the construct.
This is exactly the shape the scanner produces (tagsOfText_shape). -/
structure ValidTag (parts : Parts) (tg : TagMatch) (before after : List Char) : Prop where
  text_eq : getTextAt parts tg.loc = some (before ++ tg.full ++ after)
  full_eq : tg.full = fullCh tg.text1 (specOf tg) tg.text2
  first_eq : tg.first = before.length
  last_eq : tg.last + 1 = tg.first + tg.full.length

theorem append_isEmpty_false (t1 v t2 : List Char) (hv : v ≠ []) :
    (t1 ++ v ++ t2).isEmpty = false := by
  cases t1 <;> cases v <;> simp_all

/-- Central edit lemma: for a valid match, the apply phase rewrites the
container text to prefix-value-suffix (or deletes the whole span when
the value is empty), provided the match is not routed into the
multi-line list expansion with a value that actually splits. -/
theorem applyPhase_getText (parts : Parts) (tg : TagMatch) (before after v : List Char)
    (hv : ValidTag parts tg before after)
    (hcase : isListItemAt parts tg.loc = false
      ∨ isFullRepOf (before ++ tg.full ++ after) tg = false
      ∨ splitOnP isNL v = [v]) :
    getTextAt (applyPhase parts tg v) tg.loc
      = some (if v.isEmpty then before ++ after
              else before ++ tg.text1 ++ v ++ tg.text2 ++ after) := by
  obtain ⟨htext, hfull, hfirst, hlast⟩ := hv
  have tailgoal : getTextAt (setTextAt parts tg.loc
      (if (if v.isEmpty = true then ([] : List Char) else tg.text1 ++ v ++ tg.text2).isEmpty = true
       then deleteText (before ++ tg.full ++ after) tg.first tg.last
       else editSeq (before ++ tg.full ++ after) tg.first tg.last tg.text1 tg.text2 v)) tg.loc
      = some (if v.isEmpty = true then before ++ after
              else before ++ tg.text1 ++ v ++ tg.text2 ++ after) := by
    cases hve : v.isEmpty with
    | true =>
      have hvnil : v = [] := by
        cases v with
        | nil => rfl
        | cons a t => simp at hve
      subst hvnil
      simp only [List.isEmpty_nil, eq_self_iff_true, if_true]
      rw [getTextAt_set_self parts tg.loc _ _ htext,
        deleteText_whole before tg.full after tg.first tg.last hfirst hlast]
    | false =>
      have hvne : v ≠ [] := by
        cases v with
        | nil => simp at hve
        | cons a t => simp
      simp only [hve, Bool.false_eq_true, if_false,
        append_isEmpty_false tg.text1 v tg.text2 hvne]
      rw [getTextAt_set_self parts tg.loc _ _ htext]
      have he2 : editSeq (before ++ tg.full ++ after) tg.first tg.last tg.text1 tg.text2 v
          = before ++ tg.text1 ++ v ++ tg.text2 ++ after := by
        conv_lhs => rw [hfull]
        exact editSeq_correct before tg.text1 (specOf tg) tg.text2 after v tg.first tg.last
          hfirst (by rw [← hfull]; exact hlast)
      rw [he2]
  unfold applyPhase
  rw [htext]
  simp only []
  cases hni : isListItemAt parts tg.loc && isFullRepOf (before ++ tg.full ++ after) tg
      && !(splitOnP isNL v).isEmpty with
  | false =>
    simp only [Bool.false_eq_true, if_false]
    exact tailgoal
  | true =>
    simp only [eq_self_iff_true, if_true]
    have hsplit : splitOnP isNL v = [v] := by
      rcases hcase with hc | hc | hc
      · rw [hc] at hni; simp at hni
      · rw [hc] at hni; simp at hni
      · exact hc
    rw [hsplit]
    simp only [List.headD_cons, List.drop_succ_cons, List.drop_zero]
    rw [insertNewItems_nil]
    exact tailgoal

theorem mid_append_ne_nil (before t1 v t2 after : List Char) (hv : v ≠ []) :
    before ++ t1 ++ v ++ t2 ++ after ≠ [] := by
  intro h
  rcases List.append_eq_nil.mp h with ⟨h1, -⟩
  rcases List.append_eq_nil.mp h1 with ⟨h3, -⟩
  rcases List.append_eq_nil.mp h3 with ⟨-, h6⟩
  exact hv h6

/-! ## Claim C1 -/

/-- The document and field map of the C1 counterexample: a list item
whose whole text is one tag, resolving to a two-line value. -/
def c1map : FieldMap := [(strL "F", strL "A\nB")]

def c1doc : Parts := [[Elem.item 0 (strL "<<F>>")]]

/-- Claim C1, counterexample: for the full replacement of a list item by
a multi-line value, the container text after the edit is only the first
line of the resolved value, not prefix-value-suffix: the claim fails as
stated on this input. -/
theorem claim1_cex :
    merge c1map c1doc = [[Elem.item 0 (strL "A"), Elem.item 0 (strL "B")]]
    ∧ getTextAt (merge c1map c1doc) (Loc.top 0 0) = some (strL "A")
    ∧ getTextAt (merge c1map c1doc) (Loc.top 0 0)
        ≠ some ([] ++ [] ++ strL "A\nB" ++ [] ++ []) := by
  refine ⟨by decide, by decide, by decide⟩

/-- Claim C1 (amended): for every processed match whose resolved value
is non-empty, the container text after the edit is the text before the
match, then prefix, value and suffix, then the text after the match --
provided the match is not a full replacement of a list item whose value
splits into several lines (in that case only the first line is kept,
see C4); and for every processed match whose resolved value is empty,
the whole matched span, including the literal prefix and suffix, is
deleted by the edit. -/
theorem claim1_thm (parts : Parts) (map : FieldMap) (tg : TagMatch)
    (before after v : List Char)
    (hv : ValidTag parts tg before after)
    (hknown : mapHas map tg.tag = true)
    (hval : mapGet map tg.tag = v) :
    (v ≠ [] →
      (isListItemAt parts tg.loc = false
        ∨ isFullRepOf (before ++ tg.full ++ after) tg = false
        ∨ splitOnP isNL v = [v]) →
      getTextAt (processTag map parts tg) tg.loc
        = some (before ++ tg.text1 ++ v ++ tg.text2 ++ after))
    ∧ (v = [] →
      getTextAt (applyPhase parts tg v) tg.loc = some (before ++ after)) := by
  constructor
  · intro hvne hcase
    have hve : v.isEmpty = false := by
      cases v with
      | nil => exact absurd rfl hvne
      | cons a t => rfl
    have happly := applyPhase_getText parts tg before after v hv hcase
    rw [hve] at happly
    simp only [Bool.false_eq_true, if_false] at happly
    have hproc : processTag map parts tg = processKnown parts tg v := by
      unfold processTag
      rw [hknown]
      simp only [Bool.not_true, Bool.false_eq_true, if_false]
      rw [hval]
    rw [hproc]
    unfold processKnown
    rw [cleanupAt_nonempty _ _ _ happly (mid_append_ne_nil before tg.text1 v tg.text2 after hvne)]
    exact happly
  · intro hvnil
    subst hvnil
    have happly := applyPhase_getText parts tg before after [] hv (Or.inr (Or.inr rfl))
    simpa using happly

/-- Concrete scenario for the witnesses: a paragraph with literal text
around a wrapped tag. -/
def w1doc : Parts := [[Elem.para (strL "xx<a<T>b>yy")]]

def w1map : FieldMap := [(strL "T", strL "V")]

def w1tg : TagMatch :=
  { full := strL "<a<T>b>", loc := Loc.top 0 0, first := 2, last := 8,
    text1 := strL "a", tag := strL "T", text2 := strL "b", opt := false, part := 0 }

theorem claim1_wit :
    getTextAt (processTag w1map w1doc w1tg) w1tg.loc
      = some (strL "xx" ++ strL "a" ++ strL "V" ++ strL "b" ++ strL "yy") :=
  (claim1_thm w1doc w1map w1tg (strL "xx") (strL "yy") (strL "V")
    ⟨by decide, by decide, by decide, by decide⟩ (by decide) (by decide)).1
    (by decide) (Or.inl (by decide))

/-! ## Claim C2 -/

/-- Claim C2: value resolution.  A known tag resolves to the mapped
value; an unknown optional tag resolves to the empty string, so the
whole span is deleted by the edit; an unknown non-optional tag is
skipped entirely, leaving the document untouched with no structural
cleanup. -/
theorem claim2_thm (parts : Parts) (map : FieldMap) (tg : TagMatch)
    (before after : List Char)
    (hv : ValidTag parts tg before after) :
    (mapHas map tg.tag = false → tg.opt = false → processTag map parts tg = parts)
    ∧ (mapHas map tg.tag = true →
        processTag map parts tg = processKnown parts tg (mapGet map tg.tag))
    ∧ (mapHas map tg.tag = false → tg.opt = true →
        processTag map parts tg = processKnown parts tg []
        ∧ getTextAt (applyPhase parts tg []) tg.loc = some (before ++ after)) := by
  refine ⟨?_, ?_, ?_⟩
  · intro hk ho
    unfold processTag
    rw [hk, ho]
    rfl
  · intro hk
    unfold processTag
    rw [hk]
    rfl
  · intro hk ho
    constructor
    · unfold processTag
      rw [hk, ho]
      rfl
    · have happly := applyPhase_getText parts tg before after [] hv (Or.inr (Or.inr rfl))
      simpa using happly

theorem claim2_wit :
    processTag [] w1doc w1tg = w1doc :=
  (claim2_thm w1doc [] w1tg (strL "xx") (strL "yy")
    ⟨by decide, by decide, by decide, by decide⟩).1 (by decide) (by decide)

/-! ## Claim C6 -/

/-- Claim C6: scanner invariants.  In every tag match produced by the
scanner, the wrapper runs contain no bracket, the tag name contains no
bracket and no question mark, the tag name is never empty, and the
matched construct carries the optional question mark exactly when the
optional flag is set (the mark being stripped from the tag name). -/
theorem claim6_thm (p : Nat) (part : List Elem) (tg : TagMatch)
    (h : tg ∈ findAllTags p part) :
    (∀ ch ∈ tg.text1, ch ≠ '<' ∧ ch ≠ '>')
    ∧ (∀ ch ∈ tg.text2, ch ≠ '<' ∧ ch ≠ '>')
    ∧ (∀ ch ∈ tg.tag, ch ≠ '<' ∧ ch ≠ '>' ∧ ch ≠ '?')
    ∧ tg.full = fullCh tg.text1 (specOf tg) tg.text2
    ∧ tg.tag ≠ [] := by
  unfold findAllTags at h
  obtain ⟨lt, hlt, htg⟩ := List.mem_flatMap.mp h
  obtain ⟨before, after, q, hs, hfirst, hlast, hfull, hq, hopt, hne, hc1, hc2, hc3, hloc, hpart⟩ :=
    tagsOfText_shape lt.1 p lt.2 tg htg
  have hspec : specOf tg = tg.tag ++ q := by
    rcases hq with hq2 | hq2 <;> subst hq2 <;> simp [specOf, hopt]
  refine ⟨?_, ?_, ?_, by rw [hspec]; exact hfull, hne⟩
  · intro ch hch
    have hx := hc1 ch hch
    simp only [isPS, Bool.and_eq_true, bne_iff_ne] at hx
    exact hx
  · intro ch hch
    have hx := hc3 ch hch
    simp only [isPS, Bool.and_eq_true, bne_iff_ne] at hx
    exact hx
  · intro ch hch
    have hx := hc2 ch hch
    simp only [isTC, Bool.and_eq_true, bne_iff_ne] at hx
    exact ⟨hx.1.1, hx.1.2, hx.2⟩

def w6part : List Elem := [Elem.para (strL "<a<T?>b>")]

def w6tg : TagMatch :=
  { full := strL "<a<T?>b>", loc := Loc.top 0 0, first := 0, last := 7,
    text1 := strL "a", tag := strL "T", text2 := strL "b", opt := true, part := 0 }

theorem claim6_wit :
    (∀ ch ∈ w6tg.text1, ch ≠ '<' ∧ ch ≠ '>')
    ∧ (∀ ch ∈ w6tg.text2, ch ≠ '<' ∧ ch ≠ '>')
    ∧ (∀ ch ∈ w6tg.tag, ch ≠ '<' ∧ ch ≠ '>' ∧ ch ≠ '?')
    ∧ w6tg.full = fullCh w6tg.text1 (specOf w6tg) w6tg.text2
    ∧ w6tg.tag ≠ [] :=
  claim6_thm 0 w6part w6tg (by decide)

/-! ## Claim C7 -/

/-- Claim C7: within one container the scanner reports matches strictly
left to right and the original spans of two distinct matches never
overlap: every match ends strictly before the next one starts. -/
theorem claim7_thm (loc : Loc) (p : Nat) (s : List Char) :
    List.Pairwise (fun a b => a.last < b.first) (tagsOfText loc p s)
    ∧ ∀ tg ∈ tagsOfText loc p s, tg.first ≤ tg.last := by
  constructor
  · unfold tagsOfText
    refine List.Pairwise.map _ ?_ (scanAux_pairwise s (s.length + 1) 0)
    intro a b hab
    simpa using hab
  · intro tg htg
    unfold tagsOfText at htg
    obtain ⟨r, hr, heq⟩ := List.mem_map.mp htg
    obtain ⟨st, e⟩ := r
    have hle := range_first_le_last s _ _ st e hr
    rw [← heq]
    simpa using hle

def w7tg : TagMatch :=
  { full := strL "<<A>>", loc := Loc.top 0 0, first := 0, last := 4,
    text1 := [], tag := strL "A", text2 := [], opt := false, part := 0 }

theorem claim7_wit :
    List.Pairwise (fun a b => a.last < b.first)
      (tagsOfText (Loc.top 0 0) 0 (strL "<<A>><<B>>"))
    ∧ w7tg.first ≤ w7tg.last :=
  ⟨(claim7_thm (Loc.top 0 0) 0 (strL "<<A>><<B>>")).1,
   (claim7_thm (Loc.top 0 0) 0 (strL "<<A>><<B>>")).2 w7tg (by decide)⟩

/-! ## Claim C9 -/

/-- Claim C9: a bracketed construct with an empty tag name is never
recognized: the pattern requires at least one tag-name character, so the
scanner never produces an empty tag name, and documents containing such
constructs are left unmodified by merge. -/
theorem claim9_thm :
    (∀ loc p s tg, tg ∈ tagsOfText loc p s → tg.tag ≠ [])
    ∧ (∀ map, merge map [[Elem.para (strL "<<>>")]] = [[Elem.para (strL "<<>>")]])
    ∧ (∀ map, merge map [[Elem.para (strL "<a<>b>")]] = [[Elem.para (strL "<a<>b>")]]) := by
  refine ⟨?_, ?_, ?_⟩
  · intro loc p s tg htg
    obtain ⟨before, after, q, hs, hfirst, hlast, hfull, hq, hopt, hne, hc1, hc2, hc3, hloc, hpart⟩ :=
      tagsOfText_shape loc p s tg htg
    exact hne
  · intro map
    unfold merge
    rw [show collectTags [[Elem.para (strL "<<>>")]] = [] from by decide]
    rfl
  · intro map
    unfold merge
    rw [show collectTags [[Elem.para (strL "<a<>b>")]] = [] from by decide]
    rfl

theorem claim9_wit :
    w7tg.tag ≠ [] ∧ merge w1map [[Elem.para (strL "<<>>")]] = [[Elem.para (strL "<<>>")]] :=
  ⟨claim9_thm.1 (Loc.top 0 0) 0 (strL "<<A>>") w7tg (by decide), claim9_thm.2.1 w1map⟩

/-! ## The list-item expansion path -/

theorem modNth_eq_setNth (f : α → α) (l : List α) (n : Nat) (x : α)
    (h : nth l n = some x) : modNth f n l = setNth l n (f x) := by
  induction l generalizing n with
  | nil => cases n <;> rfl
  | cons a t ih =>
    cases n with
    | zero => simp [nth] at h; simp [modNth, setNth, h]
    | succ m => simp [modNth, setNth, ih m h]

theorem setNth_setNth (l : List α) (n : Nat) (x y : α) :
    setNth (setNth l n x) n y = setNth l n y := by
  induction l generalizing n with
  | nil => rfl
  | cons a t ih =>
    cases n with
    | zero => rfl
    | succ m => simp [setNth, ih m]

theorem nth_map (f : α → β) (l : List α) (n : Nat) :
    nth (l.map f) n = (nth l n).map f := by
  induction l generalizing n with
  | nil => cases n <;> rfl
  | cons a t ih =>
    cases n with
    | zero => rfl
    | succ m => simpa [nth] using ih m

theorem nth_insertAllAt_mid (l : List α) (k : Nat) (xs : List α) (m : Nat)
    (hk : k ≤ l.length) (hm : m < xs.length) :
    nth (insertAllAt l k xs) (k + m) = nth xs m := by
  unfold insertAllAt
  rw [List.append_assoc]
  have h2 := nth_len_append (l.take k) (xs ++ l.drop k) m
  rw [List.length_take, Nat.min_eq_left hk] at h2
  rw [h2, nth_append_lt xs (l.drop k) m hm]

/-- Full replacement of a list item by a value whose first line is
non-empty: the item text becomes the first line, and one sibling item
per remaining line is inserted right after it, with the same glyph. -/
theorem processTag_item_full (map : FieldMap) (parts : Parts) (tg : TagMatch)
    (p i : Nat) (part : List Elem) (g : Nat) (v l0 : List Char) (ls : List (List Char))
    (hloc : tg.loc = Loc.top p i)
    (hpart : nth parts p = some part)
    (hel : nth part i = some (Elem.item g tg.full))
    (ht1 : tg.text1 = []) (ht2 : tg.text2 = [])
    (hfull : tg.full = fullCh tg.text1 (specOf tg) tg.text2)
    (hfirst : tg.first = 0) (hlast : tg.last + 1 = tg.full.length)
    (hknown : mapHas map tg.tag = true) (hval : mapGet map tg.tag = v)
    (hsplit : splitOnP isNL v = l0 :: ls)
    (hl0 : l0 ≠ []) :
    nth (processTag map parts tg) p
      = some (insertAllAt (setNth part i (Elem.item g l0)) (i + 1)
          (ls.map fun ln => Elem.item g ln)) := by
  have hip : i < part.length := nth_some_lt part i _ hel
  have hpp : p < parts.length := nth_some_lt parts p _ hpart
  have htext : getTextAt parts tg.loc = some tg.full := by
    rw [hloc]; simp [getTextAt, elemAt, hpart, hel]
  have hproc : processTag map parts tg = processKnown parts tg v := by
    unfold processTag
    rw [hknown]
    simp only [Bool.not_true, Bool.false_eq_true, if_false]
    rw [hval]
  have hisItem : isListItemAt parts tg.loc = true := by
    rw [hloc]; simp [isListItemAt, elemAt, hpart, hel]
  have hisFull : isFullRepOf tg.full tg = true := by
    simp [isFullRepOf, ht1, ht2]
  have hl0e : l0.isEmpty = false := by
    cases l0 with
    | nil => exact absurd rfl hl0
    | cons a t => rfl
  have hedit : editSeq tg.full tg.first tg.last tg.text1 tg.text2 l0 = l0 := by
    have hsh : tg.full = [] ++ fullCh tg.text1 (specOf tg) tg.text2 ++ [] := by
      rw [hfull]; simp
    conv_lhs => rw [hsh]
    rw [editSeq_correct [] tg.text1 (specOf tg) tg.text2 [] l0 tg.first tg.last
      (by simpa using hfirst) (by rw [← hfull, hfirst, Nat.zero_add]; exact hlast)]
    simp [ht1, ht2]
  have hset : setTextAt parts tg.loc l0 = setNth parts p (setNth part i (Elem.item g l0)) := by
    rw [hloc]
    simp only [setTextAt, modPart]
    rw [modNth_eq_setNth _ parts p part hpart]
    congr 1
    simp only [hel]
  have hins : insertNewItems (setNth parts p (setNth part i (Elem.item g l0))) tg ls
      = setNth parts p (insertAllAt (setNth part i (Elem.item g l0)) (i + 1)
          (ls.map fun ln => Elem.item g ln)) := by
    unfold insertNewItems
    rw [hloc]
    simp only []
    have he1 : elemAt (setNth parts p (setNth part i (Elem.item g l0))) p i
        = some (Elem.item g l0) := by
      simp [elemAt, nth_setNth_self parts p _ hpp, nth_setNth_self part i _ hip]
    rw [he1]
    simp only [modPart]
    rw [modNth_eq_setNth _ _ p (setNth part i (Elem.item g l0))
      (nth_setNth_self parts p _ hpp)]
    rw [setNth_setNth]
  have hfin : getTextAt (setNth parts p (insertAllAt (setNth part i (Elem.item g l0)) (i + 1)
      (ls.map fun ln => Elem.item g ln))) tg.loc = some l0 := by
    rw [hloc]
    simp only [getTextAt, elemAt]
    rw [nth_setNth_self parts p _ hpp]
    simp only []
    rw [nth_insertAllAt_lt _ (i + 1) _ i (by omega) (by rw [length_setNth]; omega)]
    rw [nth_setNth_self part i _ hip]
  rw [hproc]
  unfold processKnown
  unfold applyPhase
  rw [htext]
  simp only []
  rw [hisItem, hisFull, hsplit]
  simp only [List.isEmpty_cons, Bool.not_false, Bool.and_self, Bool.and_true, Bool.true_and,
    eq_self_iff_true, if_true, List.headD_cons, List.drop_succ_cons, List.drop_zero]
  rw [hl0e]
  simp only [Bool.false_eq_true, if_false]
  rw [append_isEmpty_false tg.text1 l0 tg.text2 hl0]
  simp only [Bool.false_eq_true, if_false]
  rw [hedit, hset, hins]
  rw [cleanupAt_nonempty _ _ l0 hfin hl0]
  rw [nth_setNth_self parts p _ hpp]

/-! ## Claim C10 -/

/-- Claim C10: a full list-item replacement by a non-empty single-line
value goes through the line-splitting path but inserts no sibling item:
the item text becomes the value and the part keeps its length. -/
theorem claim10_thm (map : FieldMap) (parts : Parts) (tg : TagMatch)
    (p i : Nat) (part : List Elem) (g : Nat) (v : List Char)
    (hloc : tg.loc = Loc.top p i)
    (hpart : nth parts p = some part)
    (hel : nth part i = some (Elem.item g tg.full))
    (ht1 : tg.text1 = []) (ht2 : tg.text2 = [])
    (hfull : tg.full = fullCh tg.text1 (specOf tg) tg.text2)
    (hfirst : tg.first = 0) (hlast : tg.last + 1 = tg.full.length)
    (hknown : mapHas map tg.tag = true) (hval : mapGet map tg.tag = v)
    (hnl : ∀ c ∈ v, isNL c = false) (hvne : v ≠ []) :
    nth (processTag map parts tg) p = some (setNth part i (Elem.item g v))
    ∧ (setNth part i (Elem.item g v)).length = part.length := by
  have hsplit : splitOnP isNL v = [v] := splitOnP_no_sep isNL v hnl
  have h := processTag_item_full map parts tg p i part g v v [] hloc hpart hel ht1 ht2
    hfull hfirst hlast hknown hval hsplit hvne
  constructor
  · rw [h]
    congr 1
    simp [insertAllAt]
  · exact length_setNth part i _

def w10doc : Parts := [[Elem.item 3 (strL "<<F>>")]]

def w10map : FieldMap := [(strL "F", strL "hello")]

def w10tg : TagMatch :=
  { full := strL "<<F>>", loc := Loc.top 0 0, first := 0, last := 4,
    text1 := [], tag := strL "F", text2 := [], opt := false, part := 0 }

theorem claim10_wit :
    nth (processTag w10map w10doc w10tg) 0
      = some (setNth [Elem.item 3 (strL "<<F>>")] 0 (Elem.item 3 (strL "hello")))
    ∧ (setNth [Elem.item 3 (strL "<<F>>")] 0 (Elem.item 3 (strL "hello"))).length
        = [Elem.item 3 (strL "<<F>>")].length :=
  claim10_thm w10map w10doc w10tg 0 0 [Elem.item 3 (strL "<<F>>")] 3 (strL "hello")
    (by decide) (by decide) (by decide) (by decide) (by decide) (by decide) (by decide)
    (by decide) (by decide) (by decide) (by decide) (by decide)

/-! ## Claim C4 -/

def c4map : FieldMap := [(strL "F", strL "\nB")]

def c4doc : Parts := [[Elem.item 0 (strL "<<F>>")]]

/-- Claim C4, counterexample: a full list-item replacement by a value of
n = 2 lines whose first line is empty.  The claim predicts an item count
of 2 (increase by n - 1), but the emptied original item is removed by
the cleanup step, leaving a single item. -/
theorem claim4_cex :
    merge c4map c4doc = [[Elem.item 0 (strL "B")]]
    ∧ ((nth (merge c4map c4doc) 0).getD []).length ≠ 2 := by
  refine ⟨by decide, by decide⟩

/-- Claim C4 (amended): full replacement of a list item by a value of
n >= 2 lines whose first line is non-empty: the item text becomes the
first line, the remaining lines are inserted as new sibling items right
after it in line order with the same glyph, and the part grows by n - 1
elements.  (When the first line is empty the original item is emptied
and then removed by cleanup, so the count grows only by n - 2, see the
counterexample.) -/
theorem claim4_thm (map : FieldMap) (parts : Parts) (tg : TagMatch)
    (p i : Nat) (part : List Elem) (g : Nat) (v l0 : List Char) (ls : List (List Char))
    (hloc : tg.loc = Loc.top p i)
    (hpart : nth parts p = some part)
    (hel : nth part i = some (Elem.item g tg.full))
    (ht1 : tg.text1 = []) (ht2 : tg.text2 = [])
    (hfull : tg.full = fullCh tg.text1 (specOf tg) tg.text2)
    (hfirst : tg.first = 0) (hlast : tg.last + 1 = tg.full.length)
    (hknown : mapHas map tg.tag = true) (hval : mapGet map tg.tag = v)
    (hsplit : splitOnP isNL v = l0 :: ls) (hls : ls ≠ []) (hl0 : l0 ≠ []) :
    nth (processTag map parts tg) p
      = some (insertAllAt (setNth part i (Elem.item g l0)) (i + 1)
          (ls.map fun ln => Elem.item g ln))
    ∧ (∀ k ck, nth ls k = some ck →
        nth (insertAllAt (setNth part i (Elem.item g l0)) (i + 1)
          (ls.map fun ln => Elem.item g ln)) (i + 1 + k) = some (Elem.item g ck))
    ∧ (insertAllAt (setNth part i (Elem.item g l0)) (i + 1)
        (ls.map fun ln => Elem.item g ln)).length = part.length + ls.length := by
  have hip : i < part.length := nth_some_lt part i _ hel
  refine ⟨processTag_item_full map parts tg p i part g v l0 ls hloc hpart hel ht1 ht2
    hfull hfirst hlast hknown hval hsplit hl0, ?_, ?_⟩
  · intro k ck hk
    have hklt : k < ls.length := nth_some_lt ls k ck hk
    rw [nth_insertAllAt_mid _ (i + 1) _ k (by rw [length_setNth]; omega) (by simpa using hklt)]
    rw [nth_map _ ls k, hk]
    rfl
  · rw [length_insertAllAt _ _ _ (by rw [length_setNth]; omega)]
    rw [length_setNth, List.length_map]

def w4map : FieldMap := [(strL "F", strL "A\nB\nC")]

def w4part : List Elem := [Elem.item 7 (strL "<<F>>")]

def w4doc : Parts := [w4part]

def w4tg : TagMatch :=
  { full := strL "<<F>>", loc := Loc.top 0 0, first := 0, last := 4,
    text1 := [], tag := strL "F", text2 := [], opt := false, part := 0 }

theorem claim4_wit :
    nth (processTag w4map w4doc w4tg) 0
      = some (insertAllAt (setNth w4part 0 (Elem.item 7 (strL "A"))) 1
          ([strL "B", strL "C"].map fun ln => Elem.item 7 ln))
    ∧ (insertAllAt (setNth w4part 0 (Elem.item 7 (strL "A"))) 1
        ([strL "B", strL "C"].map fun ln => Elem.item 7 ln)).length
        = w4part.length + [strL "B", strL "C"].length :=
  ⟨(claim4_thm w4map w4doc w4tg 0 0 w4part 7 (strL "A\nB\nC") (strL "A")
      [strL "B", strL "C"] (by decide) (by decide) (by decide) (by decide) (by decide)
      (by decide) (by decide) (by decide) (by decide) (by decide) (by decide) (by decide)
      (by decide)).1,
   (claim4_thm w4map w4doc w4tg 0 0 w4part 7 (strL "A\nB\nC") (strL "A")
      [strL "B", strL "C"] (by decide) (by decide) (by decide) (by decide) (by decide)
      (by decide) (by decide) (by decide) (by decide) (by decide) (by decide) (by decide)
      (by decide)).2.2⟩

/-! ## Claim C5 -/

theorem mergeLoop_foldl_reverse (map : FieldMap) (tags : List TagMatch) (parts : Parts) :
    mergeLoop map tags parts
      = tags.reverse.foldl (fun ps tg => processTag map ps tg) parts := by
  induction tags generalizing parts with
  | nil => rfl
  | cons t ts ih =>
    show processTag map (mergeLoop map ts parts) t = _
    rw [ih parts]
    rw [List.reverse_cons, List.foldl_append]
    rfl

/-- Claim C5: merge first enumerates every tag of every part from the
original document and only then mutates, processing the enumerated
sequence in reverse; and processing a match leaves every character
strictly before its start offset in place, so the recorded offsets of
any earlier, not-yet-processed match in the same container stay valid. -/
theorem claim5_thm :
    (∀ (map : FieldMap) (parts : Parts),
      merge map parts
        = (collectTags parts).reverse.foldl (fun ps tg => processTag map ps tg) parts)
    ∧ (∀ (parts : Parts) (map : FieldMap) (tg : TagMatch) (before after : List Char) (k : Nat),
        ValidTag parts tg before after → 0 < tg.first → k ≤ tg.first →
        ∃ t2, getTextAt (processTag map parts tg) tg.loc = some t2
          ∧ t2.take k = (before ++ tg.full ++ after).take k) := by
  constructor
  · intro map parts
    unfold merge
    exact mergeLoop_foldl_reverse map (collectTags parts) parts
  · intro parts map tg before after k hv hpos hk
    obtain ⟨htext, hfull, hfirst, hlast⟩ := hv
    rw [hfirst] at hpos hk
    have hbne : before ≠ [] := by
      intro h
      rw [h] at hpos
      simp at hpos
    have hflen : isFullRepOf (before ++ tg.full ++ after) tg = false := by
      unfold isFullRepOf
      have hne : tg.full ≠ before ++ tg.full ++ after := by
        intro h
        have hlen := congrArg List.length h
        simp at hlen
        omega
      rw [beq_eq_false_iff_ne.mpr hne]
      rfl
    have main : ∀ v, ∃ t2,
        getTextAt (cleanupAt (applyPhase parts tg v) tg.loc) tg.loc = some t2
        ∧ t2.take k = (before ++ tg.full ++ after).take k := by
      intro v
      have happ := applyPhase_getText parts tg before after v
        ⟨htext, hfull, hfirst, hlast⟩ (Or.inr (Or.inl hflen))
      cases hve : v.isEmpty with
      | true =>
        rw [hve] at happ
        simp only [eq_self_iff_true, if_true] at happ
        have hne2 : before ++ after ≠ [] := fun h => hbne (List.append_eq_nil.mp h).1
        rw [cleanupAt_nonempty _ _ _ happ hne2]
        refine ⟨before ++ after, happ, ?_⟩
        rw [List.take_append_of_le_length hk]
        rw [show before ++ tg.full ++ after = (before ++ tg.full) ++ after from by simp,
          List.take_append_of_le_length (by simp; omega),
          List.take_append_of_le_length hk]
      | false =>
        rw [hve] at happ
        simp only [Bool.false_eq_true, if_false] at happ
        have hne2 : before ++ tg.text1 ++ v ++ tg.text2 ++ after ≠ [] := by
          intro h
          rcases List.append_eq_nil.mp h with ⟨h1, -⟩
          rcases List.append_eq_nil.mp h1 with ⟨h3, -⟩
          rcases List.append_eq_nil.mp h3 with ⟨h5, -⟩
          rcases List.append_eq_nil.mp h5 with ⟨h7, -⟩
          exact hbne h7
        rw [cleanupAt_nonempty _ _ _ happ hne2]
        refine ⟨_, happ, ?_⟩
        rw [show before ++ tg.text1 ++ v ++ tg.text2 ++ after
            = before ++ (tg.text1 ++ v ++ tg.text2 ++ after) from by simp,
          List.take_append_of_le_length hk]
        rw [show before ++ tg.full ++ after = before ++ (tg.full ++ after) from by simp,
          List.take_append_of_le_length hk]
    cases hkn : mapHas map tg.tag with
    | false =>
      cases hopt : tg.opt with
      | false =>
        have hskip : processTag map parts tg = parts := by
          unfold processTag
          rw [hkn, hopt]
          rfl
        exact ⟨before ++ tg.full ++ after, by rw [hskip]; exact htext, rfl⟩
      | true =>
        have hpr : processTag map parts tg = processKnown parts tg [] := by
          unfold processTag
          rw [hkn, hopt]
          rfl
        rw [hpr]
        unfold processKnown
        exact main []
    | true =>
      have hpr : processTag map parts tg = processKnown parts tg (mapGet map tg.tag) := by
        unfold processTag
        rw [hkn]
        rfl
      rw [hpr]
      unfold processKnown
      exact main (mapGet map tg.tag)

theorem claim5_wit :
    merge w1map w1doc
      = (collectTags w1doc).reverse.foldl (fun ps tg => processTag w1map ps tg) w1doc
    ∧ ∃ t2, getTextAt (processTag w1map w1doc w1tg) w1tg.loc = some t2
        ∧ t2.take 2 = (strL "xx" ++ w1tg.full ++ strL "yy").take 2 :=
  ⟨claim5_thm.1 w1map w1doc,
   claim5_thm.2 w1doc w1map w1tg (strL "xx") (strL "yy") 2
     ⟨by decide, by decide, by decide, by decide⟩ (by decide) (by decide)⟩

/-! ## Claim C3 -/

/-- Claim C3: structural cleanup after an edit.  If the edited container
(a paragraph of a table cell) is now empty it is removed from its cell;
then, if every cell of that row is empty, the whole row is removed from
the table, while if any cell is non-empty the row is preserved (with
just the paragraph removed).  A top-level container that becomes empty
is removed from its part, and a non-empty container triggers no cleanup
at all. -/
theorem claim3_thm (parts : Parts) (p i r c j : Nat) (part : List Elem)
    (rows : List (List (List (List Char)))) (row : List (List (List Char)))
    (cell : List (List Char))
    (hpart : nth parts p = some part)
    (hel : nth part i = some (Elem.table rows))
    (hr : nth rows r = some row)
    (hc : nth row c = some cell)
    (hj : nth cell j = some []) :
    ((∀ ck ∈ setNth row c (eraseNth cell j), joinNL ck = []) →
      elemAt (cleanupAt parts (Loc.inCell p i r c j)) p i
        = some (Elem.table (eraseNth (setNth rows r (setNth row c (eraseNth cell j))) r))
      ∧ (eraseNth (setNth rows r (setNth row c (eraseNth cell j))) r).length + 1
          = rows.length)
    ∧ ((∃ ck ∈ setNth row c (eraseNth cell j), joinNL ck ≠ []) →
      elemAt (cleanupAt parts (Loc.inCell p i r c j)) p i
        = some (Elem.table (setNth rows r (setNth row c (eraseNth cell j))))
      ∧ (setNth rows r (setNth row c (eraseNth cell j))).length = rows.length)
    ∧ (∀ (p2 i2 : Nat) (part2 : List Elem),
        nth parts p2 = some part2 → getTextAt parts (Loc.top p2 i2) = some [] →
        nth (cleanupAt parts (Loc.top p2 i2)) p2 = some (eraseNth part2 i2))
    ∧ (∀ (loc : Loc) (t : List Char), getTextAt parts loc = some t → t ≠ [] →
        cleanupAt parts loc = parts) := by
  have hip : i < part.length := nth_some_lt part i _ hel
  have hpp : p < parts.length := nth_some_lt parts p _ hpart
  have hrlt : r < rows.length := nth_some_lt rows r _ hr
  have htext : getTextAt parts (Loc.inCell p i r c j) = some [] := by
    simp [getTextAt, elemAt, hpart, hel, hr, hc, hj]
  set cell2 := eraseNth cell j with hcell2
  set row2 := setNth row c cell2 with hrow2
  set rows2 := setNth rows r row2 with hrows2
  set part1 := setNth part i (Elem.table rows2) with hpart1
  have hrlt2 : r < rows2.length := by rw [hrows2, length_setNth]; exact hrlt
  have hmain : cleanupAt parts (Loc.inCell p i r c j)
      = (if row2.all (fun cl => (joinNL cl).isEmpty)
         then setNth parts p (setNth part1 i (Elem.table (eraseNth rows2 r)))
         else setNth parts p part1) := by
    unfold cleanupAt
    rw [htext]
    simp only [List.isEmpty_nil, eq_self_iff_true, if_true]
    have hparts1 : (modPart parts p fun prt =>
        match nth prt i with
        | some (Elem.table rws) =>
          setNth prt i
            (Elem.table (modNth (fun rw2 => modNth (fun cl => eraseNth cl j) c rw2) r rws))
        | _ => prt) = setNth parts p part1 := by
      simp only [modPart]
      rw [modNth_eq_setNth _ parts p part hpart]
      congr 1
      simp only [hel]
      rw [modNth_eq_setNth _ rows r row hr]
      rw [modNth_eq_setNth _ row c cell hc]
    rw [hparts1]
    have he1 : elemAt (setNth parts p part1) p i = some (Elem.table rows2) := by
      simp only [elemAt]
      rw [nth_setNth_self parts p _ hpp]
      simp only []
      rw [hpart1]
      exact nth_setNth_self part i _ hip
    rw [he1]
    simp only []
    rw [hrows2, nth_setNth_self rows r row2 hrlt]
    simp only []
    rw [← hrows2]
    split
    · congr 1
      simp only [modPart]
      rw [modNth_eq_setNth _ _ p part1 (nth_setNth_self parts p part1 hpp)]
      rw [setNth_setNth]
      congr 1
      rw [hpart1, nth_setNth_self part i _ hip]
    · rfl
  refine ⟨?_, ?_, ?_, ?_⟩
  · intro hall
    have hcnd : row2.all (fun cl => (joinNL cl).isEmpty) = true := by
      rw [List.all_eq_true]
      intro ck hck
      rw [List.isEmpty_iff]
      exact hall ck hck
    rw [hmain, if_pos hcnd]
    constructor
    · simp only [elemAt]
      rw [nth_setNth_self parts p _ hpp]
      simp only []
      exact nth_setNth_self part1 i _ (by rw [hpart1, length_setNth]; exact hip)
    · rw [length_eraseNth rows2 r hrlt2, hrows2, length_setNth]
  · intro hsome
    have hcnd : row2.all (fun cl => (joinNL cl).isEmpty) = false := by
      rw [Bool.eq_false_iff]
      intro hall
      obtain ⟨ck, hckm, hckne⟩ := hsome
      have := List.all_eq_true.mp hall ck hckm
      rw [List.isEmpty_iff] at this
      exact hckne this
    rw [hmain, if_neg (by rw [hcnd]; simp)]
    constructor
    · simp only [elemAt]
      rw [nth_setNth_self parts p _ hpp]
      simp only []
      rw [hpart1]
      exact nth_setNth_self part i _ hip
    · rw [hrows2, length_setNth]
  · intro p2 i2 part2 hpart2 htext2
    unfold cleanupAt
    rw [htext2]
    simp only [List.isEmpty_nil, eq_self_iff_true, if_true, modPart]
    rw [modNth_eq_setNth _ parts p2 part2 hpart2]
    exact nth_setNth_self parts p2 _ (nth_some_lt parts p2 part2 hpart2)
  · intro loc t ht htne
    exact cleanupAt_nonempty parts loc t ht htne

def w3rows : List (List (List (List Char))) := [[[[]], [[]], [[]]]]

def w3doc : Parts := [[Elem.table w3rows]]

theorem claim3_wit :
    elemAt (cleanupAt w3doc (Loc.inCell 0 0 0 1 0)) 0 0
      = some (Elem.table
          (eraseNth (setNth w3rows 0 (setNth [[[]], [[]], [[]]] 1 (eraseNth [[]] 0))) 0))
    ∧ (eraseNth (setNth w3rows 0 (setNth [[[]], [[]], [[]]] 1 (eraseNth [[]] 0))) 0).length + 1
        = w3rows.length :=
  (claim3_thm w3doc 0 0 0 1 0 [Elem.table w3rows] w3rows [[[]], [[]], [[]]] [[]]
    (by decide) (by decide) (by decide) (by decide) (by decide)).1 (by decide)

/-! ## Claim C8: definitions

The re-merge property fails in general (see the counterexample), and is
amended with two hypotheses: field values contain no brackets, and every
container text is either bracket-free or exactly one whole-text tag
construct (cell paragraphs bracket-free).  The development below proves
the amended claim by following one merge run and classifying every
element of the resulting document.
-/

def locP : Loc → Nat
  | Loc.top p _ => p
  | Loc.inCell p _ _ _ _ => p

def locI : Loc → Nat
  | Loc.top _ i => i
  | Loc.inCell _ i _ _ _ => i

/-- Document order on top-level positions. -/
def locLt (a b : Loc) : Prop :=
  locP a < locP b ∨ (locP a = locP b ∧ locI a < locI b)

/-- A text that is exactly one whole-text tag construct. -/
def ConstructTxt (t : List Char) : Prop := parseTag t = some t.length

instance (t : List Char) : Decidable (ConstructTxt t) := by
  unfold ConstructTxt; infer_instance

/-- The tag name the scanner would extract from a whole-text construct. -/
def tagNameOf (t : List Char) : List Char := (decompRange t (0, t.length - 1)).2.2.1

/-- The optional flag the scanner would extract from a whole-text construct. -/
def optOf (t : List Char) : Bool := (decompRange t (0, t.length - 1)).2.2.2.2

/-- An element all of whose texts are bracket-free. -/
def cleanElem : Elem → Prop
  | Elem.para t => cleanTxt t
  | Elem.item _ t => cleanTxt t
  | Elem.table rows => ∀ rw ∈ rows, ∀ cl ∈ rw, ∀ tx ∈ cl, cleanTxt tx

instance (e : Elem) : Decidable (cleanElem e) := by
  cases e <;> (unfold cleanElem; infer_instance)

/-- A paragraph or list item left holding a whole-text construct whose
tag is unknown to the map (a skipped, non-optional tag). -/
def skipElem (map : FieldMap) (e : Elem) : Prop :=
  ∃ t, (e = Elem.para t ∨ ∃ g, e = Elem.item g t)
    ∧ ConstructTxt t ∧ mapHas map (tagNameOf t) = false

/-- Shape hypothesis of the amended claim C8: paragraph and item texts
are bracket-free or a single whole-text construct; table texts are
bracket-free. -/
def elemShaped : Elem → Prop
  | Elem.para t => cleanTxt t ∨ ConstructTxt t
  | Elem.item _ t => cleanTxt t ∨ ConstructTxt t
  | Elem.table rows => ∀ rw ∈ rows, ∀ cl ∈ rw, ∀ tx ∈ cl, cleanTxt tx

instance (e : Elem) : Decidable (elemShaped e) := by
  cases e <;> (unfold elemShaped; infer_instance)

def shapedParts (parts : Parts) : Prop := ∀ part ∈ parts, ∀ e ∈ part, elemShaped e

def cleanVals (map : FieldMap) : Prop := ∀ kv ∈ map, cleanTxt kv.2

/-! Small supporting lemmas. -/

theorem nth_of_mem (l : List α) (a : α) (h : a ∈ l) : ∃ n, nth l n = some a := by
  induction l with
  | nil => simp at h
  | cons b t ih =>
    rcases List.mem_cons.mp h with h | h
    · exact ⟨0, by simp [nth, h]⟩
    · obtain ⟨n, hn⟩ := ih h
      exact ⟨n + 1, hn⟩

theorem modNth_oob (f : α → α) (n : Nat) (l : List α) (h : nth l n = none) :
    modNth f n l = l := by
  induction l generalizing n with
  | nil => cases n <;> rfl
  | cons a t ih =>
    cases n with
    | zero => simp [nth] at h
    | succ m => simp [modNth, ih m h]

theorem nth_drop (l : List α) (k m : Nat) : nth (l.drop k) m = nth l (k + m) := by
  induction l generalizing k with
  | nil => cases k <;> rfl
  | cons a t ih =>
    cases k with
    | zero => simp [List.drop]
    | succ k2 =>
      simp only [List.drop_succ_cons, Nat.succ_add]
      exact ih k2

theorem nth_insertAllAt_ge (l : List α) (k : Nat) (xs : List α) (m : Nat)
    (hk : k ≤ l.length) (hm : k + xs.length ≤ m) :
    nth (insertAllAt l k xs) m = nth l (m - xs.length) := by
  unfold insertAllAt
  rw [List.append_assoc]
  have h1 : m = (l.take k).length + (m - k) := by
    rw [List.length_take, Nat.min_eq_left hk]; omega
  rw [h1, nth_len_append]
  have h2 : m - k = xs.length + (m - k - xs.length) := by omega
  rw [h2, nth_len_append]
  rw [nth_drop l k (m - k - xs.length)]
  congr 1
  omega

theorem mapGet_clean (map : FieldMap) (hvals : cleanVals map) (k : List Char) :
    cleanTxt (mapGet map k) := by
  unfold mapGet
  cases hf : map.find? (fun kv => kv.1 == k) with
  | none => intro c hc; simp at hc
  | some kv =>
    have hm : kv ∈ map := List.mem_of_find?_eq_some hf
    exact hvals kv hm

/-- A text containing a match is not bracket-free. -/
theorem tags_nonclean (loc : Loc) (p : Nat) (s : List Char) (tg : TagMatch)
    (h : tg ∈ tagsOfText loc p s) : ¬cleanTxt s := by
  intro hcl
  unfold tagsOfText at h
  rw [show findAllRangesIn s = [] from scanAux_clean s hcl _ 0] at h
  simp at h

theorem tagsOfText_clean (loc : Loc) (p : Nat) (s : List Char) (h : cleanTxt s) :
    tagsOfText loc p s = [] := by
  unfold tagsOfText
  rw [show findAllRangesIn s = [] from scanAux_clean s h _ 0]
  rfl

theorem extract_whole (s : List Char) (h : 1 ≤ s.length) :
    extract s 0 (s.length - 1) = s := by
  unfold extract
  rw [List.drop_zero]
  have : s.length - 1 + 1 - 0 = s.length := by omega
  rw [this]
  exact List.take_length s

/-! Scanning a whole-text construct yields exactly one match. -/

theorem tagsOfText_construct (loc : Loc) (p : Nat) (s : List Char) (h : ConstructTxt s) :
    tagsOfText loc p s
      = [{ full := (decompRange s (0, s.length - 1)).1, loc := loc,
           first := 0, last := s.length - 1,
           text1 := (decompRange s (0, s.length - 1)).2.1,
           tag := tagNameOf s,
           text2 := (decompRange s (0, s.length - 1)).2.2.2.1,
           opt := optOf s, part := p }] := by
  unfold tagsOfText
  rw [scan_construct s h]
  rfl

theorem constructTxt_len (s : List Char) (h : ConstructTxt s) : 5 ≤ s.length :=
  parseTag_len_lower s s.length h

theorem tagsOfText_construct_mem (loc : Loc) (p : Nat) (s : List Char) (tg : TagMatch)
    (h : ConstructTxt s) (htg : tg ∈ tagsOfText loc p s) :
    tg.tag = tagNameOf s ∧ tg.opt = optOf s ∧ tg.loc = loc ∧ tg.part = p
    ∧ tg.first = 0 ∧ tg.last = s.length - 1 ∧ tg.full = s := by
  rw [tagsOfText_construct loc p s h] at htg
  rcases List.mem_cons.mp htg with he | he
  · subst he
    refine ⟨rfl, rfl, rfl, rfl, rfl, rfl, ?_⟩
    show (decompRange s (0, s.length - 1)).1 = s
    unfold decompRange
    simp only []
    exact extract_whole s (by have := constructTxt_len s h; omega)
  · simp at he

theorem tagsOfText_construct_ne (loc : Loc) (p : Nat) (s : List Char) (h : ConstructTxt s) :
    tagsOfText loc p s ≠ [] := by
  rw [tagsOfText_construct loc p s h]
  simp

/-! Positions of the texts enumerated from a part. -/

theorem cellParas_loc (p i r c j0 : Nat) (cell : List (List Char)) (loc : Loc) (s : List Char)
    (h : (loc, s) ∈ cellParas p i r c j0 cell) :
    (∃ j, loc = Loc.inCell p i r c j) ∧ s ∈ cell := by
  induction cell generalizing j0 with
  | nil => simp [cellParas] at h
  | cons t ts ih =>
    rcases List.mem_cons.mp h with he | he
    · have h1 : loc = Loc.inCell p i r c j0 := congrArg Prod.fst he
      have h2 : s = t := congrArg Prod.snd he
      exact ⟨⟨j0, h1⟩, by simp [h2]⟩
    · obtain ⟨hj, hm⟩ := ih (j0 + 1) he
      exact ⟨hj, List.mem_cons_of_mem t hm⟩

theorem rowCells_loc (p i r c0 : Nat) (row : List (List (List Char))) (loc : Loc) (s : List Char)
    (h : (loc, s) ∈ rowCells p i r c0 row) :
    (∃ c j, loc = Loc.inCell p i r c j) ∧ ∃ cl ∈ row, s ∈ cl := by
  induction row generalizing c0 with
  | nil => simp [rowCells] at h
  | cons cl cls ih =>
    rcases List.mem_append.mp h with he | he
    · obtain ⟨⟨j, hj⟩, hm⟩ := cellParas_loc p i r c0 0 cl loc s he
      exact ⟨⟨c0, j, hj⟩, cl, by simp, hm⟩
    · obtain ⟨⟨c, j, hj⟩, cl2, hcl2, hm⟩ := ih (c0 + 1) he
      exact ⟨⟨c, j, hj⟩, cl2, List.mem_cons_of_mem cl hcl2, hm⟩

theorem tableRowsTexts_loc (p i r0 : Nat) (rows : List (List (List (List Char))))
    (loc : Loc) (s : List Char) (h : (loc, s) ∈ tableRowsTexts p i r0 rows) :
    (∃ r c j, loc = Loc.inCell p i r c j) ∧ ∃ rw ∈ rows, ∃ cl ∈ rw, s ∈ cl := by
  induction rows generalizing r0 with
  | nil => simp [tableRowsTexts] at h
  | cons rw rws ih =>
    rcases List.mem_append.mp h with he | he
    · obtain ⟨⟨c, j, hj⟩, cl, hcl, hm⟩ := rowCells_loc p i r0 0 rw loc s he
      exact ⟨⟨r0, c, j, hj⟩, rw, by simp, cl, hcl, hm⟩
    · obtain ⟨⟨r, c, j, hj⟩, rw2, hrw2, rest⟩ := ih (r0 + 1) he
      exact ⟨⟨r, c, j, hj⟩, rw2, List.mem_cons_of_mem rw hrw2, rest⟩

theorem textElemsAux_top (p : Nat) (l : List Elem) (i0 p2 n : Nat) (s : List Char)
    (h : (Loc.top p2 n, s) ∈ textElemsAux p i0 l) :
    p2 = p ∧ i0 ≤ n
    ∧ ∃ e, nth l (n - i0) = some e ∧ (e = Elem.para s ∨ ∃ g, e = Elem.item g s) := by
  induction l generalizing i0 with
  | nil => simp [textElemsAux] at h
  | cons e rest ih =>
    cases e with
    | para t =>
      rcases List.mem_cons.mp h with he | he
      · have h1 : Loc.top p2 n = Loc.top p i0 := congrArg Prod.fst he
        have h2 : s = t := congrArg Prod.snd he
        have hp2 : p2 = p := by injection h1
        have hn : n = i0 := by injection h1
        subst hn
        refine ⟨hp2, Nat.le_refl _, Elem.para t, ?_, Or.inl (by rw [h2])⟩
        simp [nth]
      · obtain ⟨hp2, hle, e2, hnth, hor⟩ := ih (i0 + 1) he
        refine ⟨hp2, by omega, e2, ?_, hor⟩
        have hn : n - i0 = (n - (i0 + 1)) + 1 := by omega
        rw [hn]
        exact hnth
    | item g t =>
      rcases List.mem_cons.mp h with he | he
      · have h1 : Loc.top p2 n = Loc.top p i0 := congrArg Prod.fst he
        have h2 : s = t := congrArg Prod.snd he
        have hp2 : p2 = p := by injection h1
        have hn : n = i0 := by injection h1
        subst hn
        refine ⟨hp2, Nat.le_refl _, Elem.item g t, ?_, Or.inr ⟨g, by rw [h2]⟩⟩
        simp [nth]
      · obtain ⟨hp2, hle, e2, hnth, hor⟩ := ih (i0 + 1) he
        refine ⟨hp2, by omega, e2, ?_, hor⟩
        have hn : n - i0 = (n - (i0 + 1)) + 1 := by omega
        rw [hn]
        exact hnth
    | table rows =>
      rcases List.mem_append.mp h with he | he
      · obtain ⟨⟨r, c, j, hj⟩, -⟩ := tableRowsTexts_loc p i0 0 rows _ s he
        simp at hj
      · obtain ⟨hp2, hle, e2, hnth, hor⟩ := ih (i0 + 1) he
        refine ⟨hp2, by omega, e2, ?_, hor⟩
        have hn : n - i0 = (n - (i0 + 1)) + 1 := by omega
        rw [hn]
        exact hnth

theorem textElemsAux_inCell (p : Nat) (l : List Elem) (i0 p2 n r c j : Nat) (s : List Char)
    (h : (Loc.inCell p2 n r c j, s) ∈ textElemsAux p i0 l) :
    ∃ rows, Elem.table rows ∈ l ∧ ∃ rw ∈ rows, ∃ cl ∈ rw, s ∈ cl := by
  induction l generalizing i0 with
  | nil => simp [textElemsAux] at h
  | cons e rest ih =>
    cases e with
    | para t =>
      rcases List.mem_cons.mp h with he | he
      · have h1 : Loc.inCell p2 n r c j = Loc.top p i0 := congrArg Prod.fst he
        simp at h1
      · obtain ⟨rows, hrows, hrest⟩ := ih (i0 + 1) he
        exact ⟨rows, List.mem_cons_of_mem _ hrows, hrest⟩
    | item g t =>
      rcases List.mem_cons.mp h with he | he
      · have h1 : Loc.inCell p2 n r c j = Loc.top p i0 := congrArg Prod.fst he
        simp at h1
      · obtain ⟨rows, hrows, hrest⟩ := ih (i0 + 1) he
        exact ⟨rows, List.mem_cons_of_mem _ hrows, hrest⟩
    | table rows =>
      rcases List.mem_append.mp h with he | he
      · obtain ⟨-, hm⟩ := tableRowsTexts_loc p i0 0 rows _ s he
        exact ⟨rows, by simp, hm⟩
      · obtain ⟨rows2, hrows2, hrest⟩ := ih (i0 + 1) he
        exact ⟨rows2, List.mem_cons_of_mem _ hrows2, hrest⟩

theorem textElemsAux_top_mem (p : Nat) (l : List Elem) (i0 k : Nat) (e : Elem)
    (hk : nth l k = some e) :
    (∀ t, e = Elem.para t → (Loc.top p (i0 + k), t) ∈ textElemsAux p i0 l)
    ∧ (∀ g t, e = Elem.item g t → (Loc.top p (i0 + k), t) ∈ textElemsAux p i0 l) := by
  induction l generalizing i0 k with
  | nil => simp [nth] at hk
  | cons e2 rest ih =>
    cases k with
    | zero =>
      simp [nth] at hk
      subst hk
      constructor
      · intro t het
        subst het
        simp [textElemsAux]
      · intro g t het
        subst het
        simp [textElemsAux]
    | succ k2 =>
      have hk2 : nth rest k2 = some e := hk
      obtain ⟨ihp, ihi⟩ := ih (i0 + 1) k2 hk2
      have harith : i0 + (k2 + 1) = (i0 + 1) + k2 := by omega
      constructor
      · intro t het
        rw [harith]
        cases e2 with
        | para t2 => exact List.mem_cons_of_mem _ (ihp t het)
        | item g2 t2 => exact List.mem_cons_of_mem _ (ihp t het)
        | table rows => exact List.mem_append.mpr (Or.inr (ihp t het))
      · intro g t het
        rw [harith]
        cases e2 with
        | para t2 => exact List.mem_cons_of_mem _ (ihi g t het)
        | item g2 t2 => exact List.mem_cons_of_mem _ (ihi g t het)
        | table rows => exact List.mem_append.mpr (Or.inr (ihi g t het))

/-! Position-aware membership in the collected tag list. -/

theorem collectAux_sound (tg : TagMatch) (n : Nat) (parts : Parts)
    (h : tg ∈ collectAux n parts) :
    ∃ p part, nth parts p = some part ∧ tg ∈ findAllTags (n + p) part := by
  induction parts generalizing n with
  | nil => simp [collectAux] at h
  | cons part rest ih =>
    rcases List.mem_append.mp h with he | he
    · exact ⟨0, part, rfl, by simpa using he⟩
    · obtain ⟨p, prt, h1, h2⟩ := ih (n + 1) he
      refine ⟨p + 1, prt, h1, ?_⟩
      have : n + (p + 1) = (n + 1) + p := by omega
      rw [this]
      exact h2

theorem collectAux_mem (tg : TagMatch) (n : Nat) (parts : Parts) (p : Nat) (part : List Elem)
    (hp : nth parts p = some part) (h : tg ∈ findAllTags (n + p) part) :
    tg ∈ collectAux n parts := by
  induction parts generalizing n p with
  | nil => simp [nth] at hp
  | cons part2 rest ih =>
    cases p with
    | zero =>
      simp [nth] at hp
      subst hp
      exact List.mem_append.mpr (Or.inl (by simpa using h))
    | succ p2 =>
      refine List.mem_append.mpr (Or.inr ?_)
      refine ih (n + 1) p2 hp ?_
      have : (n + 1) + p2 = n + (p2 + 1) := by omega
      rw [this]
      exact h

/-! Facts about every collected tag of a shaped document. -/

structure CTag (parts : Parts) (tg : TagMatch) : Prop where
  loc_eq : tg.loc = Loc.top (locP tg.loc) (locI tg.loc)
  el : ∃ e, elemAt parts (locP tg.loc) (locI tg.loc) = some e
    ∧ (e = Elem.para tg.full ∨ ∃ g, e = Elem.item g tg.full)
  construct : ConstructTxt tg.full
  first_eq : tg.first = 0
  last_eq : tg.last + 1 = tg.full.length
  full_eq : tg.full = fullCh tg.text1 (specOf tg) tg.text2
  t1_clean : ∀ c ∈ tg.text1, isPS c = true
  t2_clean : ∀ c ∈ tg.text2, isPS c = true
  tag_eq : tagNameOf tg.full = tg.tag
  opt_eq : optOf tg.full = tg.opt

theorem master_fact (parts : Parts) (hshape : shapedParts parts) (tg : TagMatch)
    (h : tg ∈ collectTags parts) : CTag parts tg := by
  obtain ⟨p, part, hp, hfind⟩ := collectAux_sound tg 0 parts h
  rw [Nat.zero_add] at hfind
  unfold findAllTags at hfind
  obtain ⟨lt, hlt, htg⟩ := List.mem_flatMap.mp hfind
  obtain ⟨loc, s⟩ := lt
  cases loc with
  | inCell p2 n r c j =>
    obtain ⟨rows, hrowsmem, rw2, hrw, cl, hcl, hs⟩ :=
      textElemsAux_inCell p part 0 p2 n r c j s hlt
    have hsh := hshape part (nth_mem parts p part hp) _ hrowsmem
    have hclean : cleanTxt s := hsh rw2 hrw cl hcl s hs
    exact absurd hclean (tags_nonclean _ _ _ _ htg)
  | top p2 n =>
    obtain ⟨hp2, -, e, hnth, hor⟩ := textElemsAux_top p part 0 p2 n s hlt
    subst hp2
    have hel : nth part n = some e := by simpa using hnth
    have hsh := hshape part (nth_mem parts p2 part hp) e (nth_mem part n e hel)
    have hcon : ConstructTxt s := by
      rcases hor with he | ⟨g, he⟩ <;> subst he <;>
        (rcases hsh with hclean | hcon
         · exact absurd hclean (tags_nonclean _ _ _ _ htg)
         · exact hcon)
    obtain ⟨htag, hopt, hloc, hpart2, hfirst, hlast, hfull⟩ :=
      tagsOfText_construct_mem (Loc.top p2 n) p2 s tg hcon htg
    obtain ⟨before, after, q, hsplit2, hfirst2, hlast2, hfull2, hq, hopt2, hne, hc1, hc2, hc3,
      -, -⟩ := tagsOfText_shape _ p2 s tg htg
    have hPI : locP tg.loc = p2 ∧ locI tg.loc = n := by rw [hloc]; exact ⟨rfl, rfl⟩
    refine ⟨?_, ?_, ?_, hfirst, ?_, ?_, hc1, hc3, ?_, ?_⟩
    · rw [hloc]; rfl
    · rw [hPI.1, hPI.2]
      refine ⟨e, ?_, ?_⟩
      · simp [elemAt, hp, hel]
      · rw [hfull]
        exact hor
    · rw [hfull]; exact hcon
    · rw [hlast2, hfirst, Nat.zero_add]
    · have hspec : specOf tg = tg.tag ++ q := by
        rcases hq with hq2 | hq2 <;> subst hq2 <;> simp [specOf, hopt2]
      rw [hspec]
      exact hfull2
    · rw [hfull]; exact htag.symm
    · rw [hfull]; exact hopt.symm

/-! Order of the collected tags of a shaped document. -/

theorem tagsOfText_loc_eq (loc : Loc) (p : Nat) (s : List Char) (tg : TagMatch)
    (h : tg ∈ tagsOfText loc p s) : tg.loc = loc := by
  unfold tagsOfText at h
  obtain ⟨r, hr, heq⟩ := List.mem_map.mp h
  rw [← heq]

theorem flatMap_nil_of (f : α → List β) (l : List α) (h : ∀ x ∈ l, f x = []) :
    l.flatMap f = [] := by
  induction l with
  | nil => rfl
  | cons a t ih =>
    simp only [List.flatMap_cons, h a (by simp), List.nil_append]
    exact ih fun x hx => h x (by simp [hx])

theorem tagsOfText_shaped_pairwise (loc : Loc) (p : Nat) (s : List Char)
    (hsh : cleanTxt s ∨ ConstructTxt s) :
    List.Pairwise (fun a b : TagMatch => locLt a.loc b.loc) (tagsOfText loc p s) := by
  rcases hsh with hc | hc
  · rw [tagsOfText_clean loc p s hc]
    exact List.Pairwise.nil
  · rw [tagsOfText_construct loc p s hc]
    simp

theorem findAllTags_pairwise_aux (p : Nat) (l : List Elem) (i0 : Nat)
    (hsh : ∀ e ∈ l, elemShaped e) :
    List.Pairwise (fun a b : TagMatch => locLt a.loc b.loc)
      ((textElemsAux p i0 l).flatMap fun lt => tagsOfText lt.1 p lt.2)
    ∧ ∀ tg ∈ (textElemsAux p i0 l).flatMap (fun lt => tagsOfText lt.1 p lt.2),
        locP tg.loc = p ∧ i0 ≤ locI tg.loc := by
  induction l generalizing i0 with
  | nil => exact ⟨List.Pairwise.nil, by simp [textElemsAux]⟩
  | cons e rest ih =>
    have hshrest : ∀ e2 ∈ rest, elemShaped e2 := fun e2 he2 => hsh e2 (by simp [he2])
    obtain ⟨ihp, ihb⟩ := ih (i0 + 1) hshrest
    have hse := hsh e (by simp)
    cases e with
    | para t =>
      simp only [textElemsAux, List.flatMap_cons]
      refine ⟨List.pairwise_append.mpr ⟨?_, ihp, ?_⟩, ?_⟩
      · exact tagsOfText_shaped_pairwise _ p t hse
      · intro a ha b hb
        have hal : a.loc = Loc.top p i0 := tagsOfText_loc_eq _ p t a ha
        obtain ⟨hbp, hbi⟩ := ihb b hb
        rw [hal]
        right
        exact ⟨hbp.symm, by rw [show locI (Loc.top p i0) = i0 from rfl]; omega⟩
      · intro tg htg
        rcases List.mem_append.mp htg with hm | hm
        · rw [tagsOfText_loc_eq _ p t tg hm]
          exact ⟨rfl, Nat.le_refl _⟩
        · obtain ⟨h1, h2⟩ := ihb tg hm
          exact ⟨h1, by omega⟩
    | item g t =>
      simp only [textElemsAux, List.flatMap_cons]
      refine ⟨List.pairwise_append.mpr ⟨?_, ihp, ?_⟩, ?_⟩
      · exact tagsOfText_shaped_pairwise _ p t hse
      · intro a ha b hb
        have hal : a.loc = Loc.top p i0 := tagsOfText_loc_eq _ p t a ha
        obtain ⟨hbp, hbi⟩ := ihb b hb
        rw [hal]
        right
        exact ⟨hbp.symm, by rw [show locI (Loc.top p i0) = i0 from rfl]; omega⟩
      · intro tg htg
        rcases List.mem_append.mp htg with hm | hm
        · rw [tagsOfText_loc_eq _ p t tg hm]
          exact ⟨rfl, Nat.le_refl _⟩
        · obtain ⟨h1, h2⟩ := ihb tg hm
          exact ⟨h1, by omega⟩
    | table rows =>
      simp only [textElemsAux]
      rw [List.flatMap_append]
      have htab : ((tableRowsTexts p i0 0 rows).flatMap fun lt => tagsOfText lt.1 p lt.2) = [] := by
        apply flatMap_nil_of
        intro lt hlt
        obtain ⟨-, rw2, hrw, cl, hcl, hs⟩ := tableRowsTexts_loc p i0 0 rows lt.1 lt.2
          (by simpa using hlt)
        exact tagsOfText_clean _ p _ (hse rw2 hrw cl hcl _ hs)
      rw [htab, List.nil_append]
      refine ⟨ihp, ?_⟩
      intro tg htg
      obtain ⟨h1, h2⟩ := ihb tg htg
      exact ⟨h1, by omega⟩

theorem collectAux_pairwise (parts : Parts) (n : Nat)
    (hshape : ∀ part ∈ parts, ∀ e ∈ part, elemShaped e) :
    List.Pairwise (fun a b : TagMatch => locLt a.loc b.loc) (collectAux n parts)
    ∧ ∀ tg ∈ collectAux n parts, n ≤ locP tg.loc := by
  induction parts generalizing n with
  | nil => exact ⟨List.Pairwise.nil, by simp [collectAux]⟩
  | cons part rest ih =>
    have hsh1 : ∀ e ∈ part, elemShaped e := hshape part (by simp)
    have hshrest : ∀ prt ∈ rest, ∀ e ∈ prt, elemShaped e :=
      fun prt hprt => hshape prt (by simp [hprt])
    obtain ⟨ihp, ihb⟩ := ih (n + 1) hshrest
    obtain ⟨hp1, hb1⟩ := findAllTags_pairwise_aux n part 0 hsh1
    show List.Pairwise _ (findAllTags n part ++ collectAux (n + 1) rest) ∧ _
    refine ⟨List.pairwise_append.mpr ⟨hp1, ihp, ?_⟩, ?_⟩
    · intro a ha b hb
      obtain ⟨hap, -⟩ := hb1 a ha
      have hbp := ihb b hb
      left
      omega
    · intro tg htg
      rcases List.mem_append.mp htg with hm | hm
      · obtain ⟨h1, -⟩ := hb1 tg hm
        omega
      · have := ihb tg hm
        omega

theorem collectTags_pairwise (parts : Parts) (hshape : shapedParts parts) :
    List.Pairwise (fun a b : TagMatch => locLt a.loc b.loc) (collectTags parts) :=
  (collectAux_pairwise parts 0 hshape).1

/-! Stability: processing a tag never changes elements in other parts,
nor elements before its own container in the same part. -/

theorem elemAt_modPart_ne (parts : Parts) (p : Nat) (f : List Elem → List Elem)
    (p' i' : Nat) (h : p' ≠ p) :
    elemAt (modPart parts p f) p' i' = elemAt parts p' i' := by
  simp only [elemAt, modPart]
  rw [nth_modNth_ne f parts p p' h]

theorem elemAt_modPart_self (parts : Parts) (p : Nat) (f : List Elem → List Elem)
    (i' : Nat) (hf : ∀ part, nth parts p = some part → nth (f part) i' = nth part i') :
    elemAt (modPart parts p f) p i' = elemAt parts p i' := by
  simp only [elemAt, modPart]
  cases hp : nth parts p with
  | none => rw [modNth_oob f p parts hp, hp]
  | some part =>
    rw [nth_modNth_self f parts p part hp]
    simp only []
    exact hf part hp

theorem elemAt_modPart_stable (parts : Parts) (p : Nat) (f : List Elem → List Elem)
    (p' i' : Nat)
    (hf : ∀ part, nth parts p = some part → nth (f part) i' = nth part i') :
    elemAt (modPart parts p f) p' i' = elemAt parts p' i' := by
  by_cases hp : p' = p
  · subst hp
    exact elemAt_modPart_self parts p' f i' hf
  · exact elemAt_modPart_ne parts p f p' i' hp

theorem setTextAt_stable (parts : Parts) (loc : Loc) (t : List Char) (p' i' : Nat)
    (h : p' ≠ locP loc ∨ i' < locI loc) :
    elemAt (setTextAt parts loc t) p' i' = elemAt parts p' i' := by
  cases loc with
  | top p i =>
    simp only [locP, locI] at h
    unfold setTextAt
    rcases h with h | h
    · exact elemAt_modPart_ne parts p _ p' i' h
    · apply elemAt_modPart_stable
      intro part hpart
      cases hni : nth part i with
      | none => simp only [hni]
      | some e =>
        cases e with
        | para t0 =>
          simp only [hni]
          exact nth_setNth_ne part i i' _ (by omega)
        | item g t0 =>
          simp only [hni]
          exact nth_setNth_ne part i i' _ (by omega)
        | table rows => simp only [hni]
  | inCell p i r c j =>
    simp only [locP, locI] at h
    unfold setTextAt
    rcases h with h | h
    · exact elemAt_modPart_ne parts p _ p' i' h
    · apply elemAt_modPart_stable
      intro part hpart
      cases hni : nth part i with
      | none => simp only [hni]
      | some e =>
        cases e with
        | para t0 => simp only [hni]
        | item g t0 => simp only [hni]
        | table rows =>
          simp only [hni]
          exact nth_setNth_ne part i i' _ (by omega)

theorem insertNewItems_stable (parts : Parts) (tg : TagMatch) (lines : List (List Char))
    (p' i' : Nat) (h : p' ≠ locP tg.loc ∨ i' < locI tg.loc) :
    elemAt (insertNewItems parts tg lines) p' i' = elemAt parts p' i' := by
  unfold insertNewItems
  cases hl : tg.loc with
  | inCell p i r c j => rfl
  | top p i =>
    rw [hl] at h
    simp only [locP, locI] at h
    simp only []
    cases hea : elemAt parts p i with
    | none => rfl
    | some e =>
      cases e with
      | para t0 => rfl
      | table rows => rfl
      | item g t0 =>
        rcases h with h | h
        · exact elemAt_modPart_ne parts p _ p' i' h
        · apply elemAt_modPart_stable
          intro part hpart
          have hnth : nth part i = some (Elem.item g t0) := by
            simpa [elemAt, hpart] using hea
          have hlen : i < part.length := nth_some_lt part i _ hnth
          exact nth_insertAllAt_lt part (i + 1) _ i' (by omega) (by omega)

theorem elemAt_modPart_stable2 (parts : Parts) (p : Nat) (f : List Elem → List Elem)
    (p' i' : Nat)
    (h : p' ≠ p ∨ ∀ part, nth parts p = some part → nth (f part) i' = nth part i') :
    elemAt (modPart parts p f) p' i' = elemAt parts p' i' := by
  rcases h with h | h
  · exact elemAt_modPart_ne parts p f p' i' h
  · exact elemAt_modPart_stable parts p f p' i' h

theorem cleanupAt_stable (parts : Parts) (loc : Loc) (p' i' : Nat)
    (h : p' ≠ locP loc ∨ i' < locI loc) :
    elemAt (cleanupAt parts loc) p' i' = elemAt parts p' i' := by
  unfold cleanupAt
  cases hg : getTextAt parts loc with
  | none => rfl
  | some t =>
    simp only []
    cases hte : t.isEmpty with
    | false => simp only [Bool.false_eq_true, if_false]
    | true =>
      simp only [eq_self_iff_true, if_true]
      cases loc with
      | top p i =>
        simp only [locP, locI] at h
        apply elemAt_modPart_stable2
        rcases h with h | h
        · exact Or.inl h
        · refine Or.inr fun part hpart => nth_eraseNth_lt part i i' h
      | inCell p i r c j =>
        simp only [locP, locI] at h
        have hAlt : ∀ (f : List Elem → List Elem),
            (∀ part, i' < i → nth (f part) i' = nth part i') →
            ∀ q : Parts, elemAt (modPart q p f) p' i' = elemAt q p' i' := by
          intro f hf q
          apply elemAt_modPart_stable2
          rcases h with h2 | h2
          · exact Or.inl h2
          · exact Or.inr fun part _ => hf part h2
        have st1 : elemAt (modPart parts p fun prt =>
            match nth prt i with
            | some (Elem.table rows) =>
              setNth prt i
                (Elem.table (modNth (fun rw2 => modNth (fun cl => eraseNth cl j) c rw2) r rows))
            | _ => prt) p' i' = elemAt parts p' i' := by
          apply hAlt
          intro part hlt
          cases hni : nth part i with
          | none => simp only [hni]
          | some e =>
            cases e with
            | para t0 => simp only [hni]
            | item g t0 => simp only [hni]
            | table rows =>
              simp only [hni]
              exact nth_setNth_ne part i i' _ (by omega)
        simp only []
        split
        next rows heq =>
          split
          next row heq2 =>
            split
            next hcond =>
              rw [hAlt _ ?hf2 _]
              case hf2 =>
                intro part hlt
                cases hni : nth part i with
                | none => simp only [hni]
                | some e =>
                  cases e with
                  | para t0 => simp only [hni]
                  | item g t0 => simp only [hni]
                  | table rows2 =>
                    simp only [hni]
                    exact nth_setNth_ne part i i' _ (by omega)
              exact st1
            next hcond => exact st1
          next => exact st1
        next => exact st1

/-! Stability of one full tag-processing step. -/

theorem applyPhase_stable (parts : Parts) (tg : TagMatch) (v : List Char) (p' i' : Nat)
    (h : p' ≠ locP tg.loc ∨ i' < locI tg.loc) :
    elemAt (applyPhase parts tg v) p' i' = elemAt parts p' i' := by
  unfold applyPhase
  cases hg : getTextAt parts tg.loc with
  | none => rfl
  | some element =>
    simp only []
    cases hni : isListItemAt parts tg.loc && isFullRepOf element tg
        && !(splitOnP isNL v).isEmpty with
    | false =>
      simp only [Bool.false_eq_true, if_false]
      exact setTextAt_stable parts tg.loc _ p' i' h
    | true =>
      simp only [eq_self_iff_true, if_true]
      rw [insertNewItems_stable _ tg _ p' i' h]
      exact setTextAt_stable parts tg.loc _ p' i' h

theorem processKnown_stable (parts : Parts) (tg : TagMatch) (v : List Char) (p' i' : Nat)
    (h : p' ≠ locP tg.loc ∨ i' < locI tg.loc) :
    elemAt (processKnown parts tg v) p' i' = elemAt parts p' i' := by
  unfold processKnown
  rw [cleanupAt_stable _ tg.loc p' i' h]
  exact applyPhase_stable parts tg v p' i' h

theorem processTag_stable (map : FieldMap) (parts : Parts) (tg : TagMatch) (p' i' : Nat)
    (h : p' ≠ locP tg.loc ∨ i' < locI tg.loc) :
    elemAt (processTag map parts tg) p' i' = elemAt parts p' i' := by
  unfold processTag
  simp only []
  cases hk : mapHas map tg.tag with
  | false =>
    simp only [Bool.not_false, eq_self_iff_true, if_true]
    cases ho : tg.opt with
    | false => simp only [Bool.false_eq_true, if_false]
    | true =>
      simp only [eq_self_iff_true, if_true]
      exact processKnown_stable parts tg [] p' i' h
  | true =>
    simp only [Bool.not_true, Bool.false_eq_true, if_false]
    exact processKnown_stable parts tg _ p' i' h

/-! Clean texts produced by a substitution. -/

theorem isBr_false_of_isPS (c : Char) (h : isPS c = true) : isBr c = false := by
  unfold isPS at h
  unfold isBr
  simp only [Bool.and_eq_true, bne_iff_ne] at h
  simp [h.1, h.2]

theorem cleanTxt_nil : cleanTxt [] := by
  intro c hc
  simp at hc

theorem cleanTxt_append (a b : List Char) (ha : cleanTxt a) (hb : cleanTxt b) :
    cleanTxt (a ++ b) := by
  intro c hc
  rcases List.mem_append.mp hc with h | h
  · exact ha c h
  · exact hb c h

/-! Classification of the elements of a rewritten part: at or after the
edited index, every element is either freshly written clean content or a
former element of the part from a strictly later index. -/

def ClassifiedFrom (part part2 : List Elem) (i : Nat) : Prop :=
  ∀ i' e, nth part2 i' = some e → i ≤ i' →
    cleanElem e ∨ ∃ j', i < j' ∧ nth part j' = some e

theorem classified_set (part : List Elem) (i : Nat) (e1 : Elem)
    (hip : i < part.length) (hce : cleanElem e1) :
    ClassifiedFrom part (setNth part i e1) i := by
  intro i' e he hge
  by_cases hi : i' = i
  · subst hi
    rw [nth_setNth_self part i' e1 hip] at he
    injection he with h2
    exact Or.inl (h2 ▸ hce)
  · rw [nth_setNth_ne part i i' e1 hi] at he
    exact Or.inr ⟨i', by omega, he⟩

theorem classified_erase (part : List Elem) (i : Nat) (e1 : Elem) (hip : i < part.length) :
    ClassifiedFrom part (eraseNth (setNth part i e1) i) i := by
  intro i' e he hge
  rw [nth_eraseNth_ge _ i i' (by rw [length_setNth]; exact hip) hge] at he
  rw [nth_setNth_ne part i (i' + 1) e1 (by omega)] at he
  exact Or.inr ⟨i' + 1, by omega, he⟩

theorem classified_insert (part : List Elem) (i : Nat) (e1 : Elem) (items : List Elem)
    (hip : i < part.length) (hce : cleanElem e1) (hci : ∀ x ∈ items, cleanElem x) :
    ClassifiedFrom part (insertAllAt (setNth part i e1) (i + 1) items) i := by
  intro i' e he hge
  have hlen : i + 1 ≤ (setNth part i e1).length := by rw [length_setNth]; omega
  by_cases h1 : i' = i
  · subst h1
    rw [nth_insertAllAt_lt _ (i' + 1) items i' (by omega) hlen] at he
    rw [nth_setNth_self part i' e1 hip] at he
    injection he with h2
    exact Or.inl (h2 ▸ hce)
  · by_cases h2 : i' < i + 1 + items.length
    · have hm := nth_insertAllAt_mid (setNth part i e1) (i + 1) items (i' - (i + 1))
        hlen (by omega)
      rw [show i + 1 + (i' - (i + 1)) = i' from by omega] at hm
      rw [hm] at he
      exact Or.inl (hci e (nth_mem items _ e he))
    · rw [nth_insertAllAt_ge _ (i + 1) items i' hlen (by omega)] at he
      rw [nth_setNth_ne part i _ e1 (by omega)] at he
      exact Or.inr ⟨i' - items.length, by omega, he⟩

theorem classified_insert_erase (part : List Elem) (i : Nat) (e1 : Elem) (items : List Elem)
    (hip : i < part.length) (hci : ∀ x ∈ items, cleanElem x) :
    ClassifiedFrom part (eraseNth (insertAllAt (setNth part i e1) (i + 1) items) i) i := by
  intro i' e he hge
  have hlen : i + 1 ≤ (setNth part i e1).length := by rw [length_setNth]; omega
  have hlen2 : i < (insertAllAt (setNth part i e1) (i + 1) items).length := by
    rw [length_insertAllAt _ _ _ hlen, length_setNth]
    omega
  rw [nth_eraseNth_ge _ i i' hlen2 hge] at he
  by_cases h2 : i' + 1 < i + 1 + items.length
  · have hm := nth_insertAllAt_mid (setNth part i e1) (i + 1) items (i' + 1 - (i + 1))
      hlen (by omega)
    rw [show i + 1 + (i' + 1 - (i + 1)) = i' + 1 from by omega] at hm
    rw [hm] at he
    exact Or.inl (hci e (nth_mem items _ e he))
  · rw [nth_insertAllAt_ge _ (i + 1) items (i' + 1) hlen (by omega)] at he
    rw [nth_setNth_ne part i _ e1 (by omega)] at he
    exact Or.inr ⟨i' + 1 - items.length, by omega, he⟩

/-! Processing a whole-construct paragraph or list item with a clean
value: at or after the edited index, the rewritten part holds only
fresh clean content and former elements from strictly later indices. -/

theorem processKnown_classify (parts : Parts) (tg : TagMatch) (v : List Char)
    (p i : Nat) (part : List Elem) (e0 : Elem)
    (hloc : tg.loc = Loc.top p i)
    (hpart : nth parts p = some part)
    (hel : nth part i = some e0)
    (hor : e0 = Elem.para tg.full ∨ ∃ g, e0 = Elem.item g tg.full)
    (hfull : tg.full = fullCh tg.text1 (specOf tg) tg.text2)
    (hfirst : tg.first = 0) (hlast : tg.last + 1 = tg.full.length)
    (ht1 : cleanTxt tg.text1) (ht2 : cleanTxt tg.text2)
    (hv : cleanTxt v) :
    ∀ i' e, elemAt (processKnown parts tg v) p i' = some e → i ≤ i' →
      cleanElem e ∨ ∃ j', i < j' ∧ elemAt parts p j' = some e := by
  have hip : i < part.length := nth_some_lt part i _ hel
  have hpp : p < parts.length := nth_some_lt parts p _ hpart
  have conclude : ∀ part2, processKnown parts tg v = setNth parts p part2 →
      ClassifiedFrom part part2 i →
      ∀ i' e, elemAt (processKnown parts tg v) p i' = some e → i ≤ i' →
        cleanElem e ∨ ∃ j', i < j' ∧ elemAt parts p j' = some e := by
    intro part2 hform hcl i' e he hge
    rw [hform] at he
    have he2 : nth part2 i' = some e := by
      simpa [elemAt, nth_setNth_self parts p part2 hpp] using he
    rcases hcl i' e he2 hge with h | ⟨j', hj, hje⟩
    · exact Or.inl h
    · exact Or.inr ⟨j', hj, by simp [elemAt, hpart, hje]⟩
  have hdel : deleteText tg.full tg.first tg.last = [] := by
    have h0 : deleteText ([] ++ tg.full ++ []) tg.first tg.last = [] ++ [] :=
      deleteText_whole [] tg.full [] tg.first tg.last (by simpa using hfirst)
        (by rw [hfirst, Nat.zero_add]; exact hlast)
    simpa using h0
  have hedit : ∀ w : List Char, editSeq tg.full tg.first tg.last tg.text1 tg.text2 w
      = tg.text1 ++ w ++ tg.text2 := by
    intro w
    have hsh : tg.full = [] ++ fullCh tg.text1 (specOf tg) tg.text2 ++ [] := by
      rw [hfull]; simp
    conv_lhs => rw [hsh]
    rw [editSeq_correct [] tg.text1 (specOf tg) tg.text2 [] w tg.first tg.last
      (by simpa using hfirst) (by rw [← hfull, hfirst, Nat.zero_add]; exact hlast)]
    simp
  rcases hor with hpara | ⟨g, hitem⟩
  · -- paragraph container
    subst hpara
    have htext : getTextAt parts tg.loc = some tg.full := by
      rw [hloc]; simp [getTextAt, elemAt, hpart, hel]
    have hii : isListItemAt parts tg.loc = false := by
      rw [hloc]; simp [isListItemAt, elemAt, hpart, hel]
    have hset : ∀ t : List Char,
        setTextAt parts tg.loc t = setNth parts p (setNth part i (Elem.para t)) := by
      intro t
      rw [hloc]
      simp only [setTextAt, modPart]
      rw [modNth_eq_setNth _ parts p part hpart]
      congr 1
      simp only [hel]
    have hga : ∀ t : List Char,
        getTextAt (setNth parts p (setNth part i (Elem.para t))) tg.loc = some t := by
      intro t
      rw [hloc]
      simp only [getTextAt, elemAt]
      rw [nth_setNth_self parts p _ hpp]
      simp only []
      rw [nth_setNth_self part i _ hip]
    cases hve : v.isEmpty with
    | true =>
      have hvnil : v = [] := by
        cases v with
        | nil => rfl
        | cons a t => simp at hve
      subst hvnil
      refine conclude (eraseNth (setNth part i (Elem.para [])) i) ?form ?cl
      case cl => exact classified_erase part i _ hip
      case form =>
        unfold processKnown applyPhase
        rw [htext]
        simp only []
        rw [hii]
        simp only [Bool.false_and, Bool.false_eq_true, if_false]
        simp only [List.isEmpty_nil, eq_self_iff_true, if_true]
        rw [hdel, hset]
        unfold cleanupAt
        rw [hga]
        simp only [List.isEmpty_nil, eq_self_iff_true, if_true]
        rw [hloc]
        simp only [modPart]
        rw [modNth_eq_setNth _ _ p _ (nth_setNth_self parts p _ hpp)]
        rw [setNth_setNth]
    | false =>
      have hvne : v ≠ [] := by
        cases v with
        | nil => simp at hve
        | cons a t => simp
      have hne : tg.text1 ++ v ++ tg.text2 ≠ [] := by
        intro hc
        rcases List.append_eq_nil.mp hc with ⟨h1, h2⟩
        rcases List.append_eq_nil.mp h1 with ⟨h3, h4⟩
        exact hvne h4
      refine conclude (setNth part i (Elem.para (tg.text1 ++ v ++ tg.text2))) ?form2 ?cl2
      case cl2 =>
        exact classified_set part i _ hip
          (cleanTxt_append _ _ (cleanTxt_append _ _ ht1 hv) ht2)
      case form2 =>
        unfold processKnown applyPhase
        rw [htext]
        simp only []
        rw [hii]
        simp only [Bool.false_and, Bool.false_eq_true, if_false]
        simp only [hve, Bool.false_eq_true, if_false,
          append_isEmpty_false tg.text1 v tg.text2 hvne]
        rw [hedit v, hset]
        exact cleanupAt_nonempty _ tg.loc _ (hga _) hne
  · -- list item container
    subst hitem
    have htext : getTextAt parts tg.loc = some tg.full := by
      rw [hloc]; simp [getTextAt, elemAt, hpart, hel]
    have hii : isListItemAt parts tg.loc = true := by
      rw [hloc]; simp [isListItemAt, elemAt, hpart, hel]
    have hset : ∀ t : List Char,
        setTextAt parts tg.loc t = setNth parts p (setNth part i (Elem.item g t)) := by
      intro t
      rw [hloc]
      simp only [setTextAt, modPart]
      rw [modNth_eq_setNth _ parts p part hpart]
      congr 1
      simp only [hel]
    have hga : ∀ t : List Char,
        getTextAt (setNth parts p (setNth part i (Elem.item g t))) tg.loc = some t := by
      intro t
      rw [hloc]
      simp only [getTextAt, elemAt]
      rw [nth_setNth_self parts p _ hpp]
      simp only []
      rw [nth_setNth_self part i _ hip]
    have hfrep : isFullRepOf tg.full tg = (tg.text1.isEmpty && tg.text2.isEmpty) := by
      simp only [isFullRepOf, beq_self_eq_true, Bool.true_and]
    cases hfr : tg.text1.isEmpty && tg.text2.isEmpty with
    | false =>
      -- wrapper text present: no list expansion
      cases hve : v.isEmpty with
      | true =>
        have hvnil : v = [] := by
          cases v with
          | nil => rfl
          | cons a t => simp at hve
        subst hvnil
        refine conclude (eraseNth (setNth part i (Elem.item g [])) i) ?form3 ?cl3
        case cl3 => exact classified_erase part i _ hip
        case form3 =>
          unfold processKnown applyPhase
          rw [htext]
          simp only []
          rw [hii]
          simp only [Bool.true_and]
          rw [hfrep, hfr]
          simp only [Bool.false_and, Bool.false_eq_true, if_false]
          simp only [List.isEmpty_nil, eq_self_iff_true, if_true]
          rw [hdel, hset]
          unfold cleanupAt
          rw [hga]
          simp only [List.isEmpty_nil, eq_self_iff_true, if_true]
          rw [hloc]
          simp only [modPart]
          rw [modNth_eq_setNth _ _ p _ (nth_setNth_self parts p _ hpp)]
          rw [setNth_setNth]
      | false =>
        have hvne : v ≠ [] := by
          cases v with
          | nil => simp at hve
          | cons a t => simp
        have hne : tg.text1 ++ v ++ tg.text2 ≠ [] := by
          intro hc
          rcases List.append_eq_nil.mp hc with ⟨h1, h2⟩
          rcases List.append_eq_nil.mp h1 with ⟨h3, h4⟩
          exact hvne h4
        refine conclude (setNth part i (Elem.item g (tg.text1 ++ v ++ tg.text2))) ?form4 ?cl4
        case cl4 =>
          exact classified_set part i _ hip
            (cleanTxt_append _ _ (cleanTxt_append _ _ ht1 hv) ht2)
        case form4 =>
          unfold processKnown applyPhase
          rw [htext]
          simp only []
          rw [hii]
          simp only [Bool.true_and]
          rw [hfrep, hfr]
          simp only [Bool.false_and, Bool.false_eq_true, if_false]
          simp only [hve, Bool.false_eq_true, if_false,
            append_isEmpty_false tg.text1 v tg.text2 hvne]
          rw [hedit v, hset]
          exact cleanupAt_nonempty _ tg.loc _ (hga _) hne
    | true =>
      -- full replacement of the list item: list expansion path
      have ht1e : tg.text1 = [] := by
        have h2 := (Bool.and_eq_true _ _).mp hfr
        exact List.isEmpty_iff.mp h2.1
      have ht2e : tg.text2 = [] := by
        have h2 := (Bool.and_eq_true _ _).mp hfr
        exact List.isEmpty_iff.mp h2.2
      have hfrt : isFullRepOf tg.full tg = true := by
        rw [hfrep, hfr]
      cases hsp : splitOnP isNL v with
      | nil => exact absurd hsp (splitOnP_ne_nil isNL v)
      | cons l0 ls =>
        have hlines : ∀ ln ∈ ls, cleanTxt ln := by
          intro ln hln c hc
          exact hv c (splitOnP_chunk_sub isNL v ln
            (by rw [hsp]; exact List.mem_cons_of_mem _ hln) c hc)
        have hl0c : cleanTxt l0 := by
          intro c hc
          exact hv c (splitOnP_chunk_sub isNL v l0
            (by rw [hsp]; exact List.mem_cons_self _ _) c hc)
        have hitems : ∀ x ∈ (ls.map fun ln => Elem.item g ln), cleanElem x := by
          intro x hx
          obtain ⟨ln, hln, hxe⟩ := List.mem_map.mp hx
          rw [← hxe]
          exact hlines ln hln
        have hins : ∀ t0 : List Char,
            insertNewItems (setNth parts p (setNth part i (Elem.item g t0))) tg ls
            = setNth parts p (insertAllAt (setNth part i (Elem.item g t0)) (i + 1)
                (ls.map fun ln => Elem.item g ln)) := by
          intro t0
          unfold insertNewItems
          rw [hloc]
          simp only []
          have he1 : elemAt (setNth parts p (setNth part i (Elem.item g t0))) p i
              = some (Elem.item g t0) := by
            simp [elemAt, nth_setNth_self parts p _ hpp, nth_setNth_self part i _ hip]
          rw [he1]
          simp only [modPart]
          rw [modNth_eq_setNth _ _ p (setNth part i (Elem.item g t0))
            (nth_setNth_self parts p _ hpp)]
          rw [setNth_setNth]
        have hga2 : ∀ t0 : List Char,
            getTextAt (setNth parts p (insertAllAt (setNth part i (Elem.item g t0)) (i + 1)
              (ls.map fun ln => Elem.item g ln))) tg.loc = some t0 := by
          intro t0
          rw [hloc]
          simp only [getTextAt, elemAt]
          rw [nth_setNth_self parts p _ hpp]
          simp only []
          rw [nth_insertAllAt_lt _ (i + 1) _ i (by omega) (by rw [length_setNth]; omega)]
          rw [nth_setNth_self part i _ hip]
        cases hl0 : l0.isEmpty with
        | true =>
          have hl0nil : l0 = [] := by
            cases l0 with
            | nil => rfl
            | cons a t => simp at hl0
          subst hl0nil
          refine conclude (eraseNth (insertAllAt (setNth part i (Elem.item g [])) (i + 1)
            (ls.map fun ln => Elem.item g ln)) i) ?form5 ?cl5
          case cl5 => exact classified_insert_erase part i _ _ hip hitems
          case form5 =>
            unfold processKnown applyPhase
            rw [htext]
            simp only []
            rw [hii, hfrt, hsp]
            simp only [Bool.true_and, List.isEmpty_cons, Bool.not_false,
              eq_self_iff_true, if_true, List.headD_cons, List.drop_succ_cons,
              List.drop_zero]
            rw [ht1e, ht2e]
            simp only [List.isEmpty_nil, List.nil_append, List.append_nil,
              eq_self_iff_true, if_true]
            rw [hdel, hset, hins]
            unfold cleanupAt
            rw [hga2]
            simp only [List.isEmpty_nil, eq_self_iff_true, if_true]
            rw [hloc]
            simp only [modPart]
            rw [modNth_eq_setNth _ _ p _ (nth_setNth_self parts p _ hpp)]
            rw [setNth_setNth]
        | false =>
          have hl0ne : l0 ≠ [] := by
            cases l0 with
            | nil => simp at hl0
            | cons a t => simp
          refine conclude (insertAllAt (setNth part i (Elem.item g l0)) (i + 1)
            (ls.map fun ln => Elem.item g ln)) ?form6 ?cl6
          case cl6 => exact classified_insert part i _ _ hip hl0c hitems
          case form6 =>
            unfold processKnown applyPhase
            rw [htext]
            simp only []
            rw [hii, hfrt, hsp]
            simp only [Bool.true_and, List.isEmpty_cons, Bool.not_false,
              eq_self_iff_true, if_true, List.headD_cons, List.drop_succ_cons,
              List.drop_zero]
            rw [ht1e, ht2e]
            simp only [List.nil_append, List.append_nil]
            simp only [hl0, Bool.false_eq_true, if_false]
            have hedit0 : editSeq tg.full tg.first tg.last [] [] l0 = l0 := by
              have h9 := hedit l0
              rw [ht1e, ht2e] at h9
              simpa using h9
            rw [hedit0, hset, hins]
            exact cleanupAt_nonempty _ tg.loc _ (hga2 _) hl0ne

/-! Completeness: a paragraph or list item holding a whole-text
construct always yields a collected tag at its own location. -/

theorem construct_tag_exists (parts : Parts) (p' i' : Nat) (part : List Elem) (e : Elem)
    (t : List Char)
    (hpart : nth parts p' = some part) (hel : nth part i' = some e)
    (hpe : e = Elem.para t ∨ ∃ g, e = Elem.item g t) (hcon : ConstructTxt t) :
    ∃ tgc ∈ collectTags parts, tgc.loc = Loc.top p' i' := by
  have hmem : (Loc.top p' (0 + i'), t) ∈ textElemsAux p' 0 part := by
    obtain ⟨hP, hI⟩ := textElemsAux_top_mem p' part 0 i' e hel
    rcases hpe with h | ⟨g, h⟩
    · exact hP t h
    · exact hI g t h
  simp only [Nat.zero_add] at hmem
  refine ⟨{ full := (decompRange t (0, t.length - 1)).1, loc := Loc.top p' i',
            first := 0, last := t.length - 1,
            text1 := (decompRange t (0, t.length - 1)).2.1,
            tag := tagNameOf t,
            text2 := (decompRange t (0, t.length - 1)).2.2.2.1,
            opt := optOf t, part := p' }, ?_, rfl⟩
  apply collectAux_mem _ 0 parts p' part hpart
  rw [Nat.zero_add]
  unfold findAllTags
  apply List.mem_flatMap.mpr
  refine ⟨(Loc.top p' i', t), hmem, ?_⟩
  rw [tagsOfText_construct (Loc.top p' i') p' t hcon]
  exact List.mem_cons_self _ _

/-- In a shaped document, an element at a location for which no tag was
collected is bracket-free. -/
theorem orig_elem_clean (parts : Parts) (hshape : shapedParts parts)
    (p' i' : Nat) (e : Elem) (he : elemAt parts p' i' = some e)
    (hno : ∀ tgc ∈ collectTags parts, tgc.loc ≠ Loc.top p' i') : cleanElem e := by
  cases hq : nth parts p' with
  | none => simp [elemAt, hq] at he
  | some part =>
    have hel : nth part i' = some e := by simpa [elemAt, hq] using he
    have hsh := hshape part (nth_mem parts p' part hq) e (nth_mem part i' e hel)
    cases e with
    | table rows => exact hsh
    | para t =>
      rcases hsh with hc | hc
      · exact hc
      · obtain ⟨tgc, hm, hl⟩ :=
          construct_tag_exists parts p' i' part _ t hq hel (Or.inl rfl) hc
        exact absurd hl (hno tgc hm)
    | item g t =>
      rcases hsh with hc | hc
      · exact hc
      · obtain ⟨tgc, hm, hl⟩ :=
          construct_tag_exists parts p' i' part _ t hq hel (Or.inr ⟨g, rfl⟩) hc
        exact absurd hl (hno tgc hm)

/-! The merge loop invariant.  Processing a sorted suffix of the
collected tags leaves every location before all processed tags
untouched, and every element at or after a processed location is
bracket-free or a skipped unknown non-optional construct. -/

def Untouched (rest : List TagMatch) (p' i' : Nat) : Prop :=
  ∀ tr ∈ rest, p' ≠ locP tr.loc ∨ i' < locI tr.loc

theorem mergeLoop_inv (map : FieldMap) (parts : Parts)
    (hshape : shapedParts parts) (hvals : cleanVals map)
    (rest pre : List TagMatch) (hsplit : collectTags parts = pre ++ rest) :
    (∀ p' i', Untouched rest p' i' →
        elemAt (mergeLoop map rest parts) p' i' = elemAt parts p' i')
    ∧ (∀ p' i' e, elemAt (mergeLoop map rest parts) p' i' = some e →
        ¬ Untouched rest p' i' → cleanElem e ∨ skipElem map e) := by
  induction rest generalizing pre with
  | nil =>
    constructor
    · intro p' i' h
      rfl
    · intro p' i' e he hnt
      exact absurd (fun tr htr => absurd htr (List.not_mem_nil tr)) hnt
  | cons tg rest ih =>
    have hsplit2 : collectTags parts = (pre ++ [tg]) ++ rest := by
      rw [hsplit, List.append_assoc]
      rfl
    obtain ⟨ih3, ih2⟩ := ih (pre ++ [tg]) hsplit2
    have htg_mem : tg ∈ collectTags parts := by
      rw [hsplit]
      exact List.mem_append.mpr (Or.inr (List.mem_cons_self _ _))
    have hct : CTag parts tg := master_fact parts hshape tg htg_mem
    have hpairwise := collectTags_pairwise parts hshape
    rw [hsplit] at hpairwise
    have hsort : ∀ tr ∈ rest, locLt tg.loc tr.loc := by
      have h2 := (List.pairwise_append.mp hpairwise).2.1
      exact fun tr htr => (List.pairwise_cons.mp h2).1 tr htr
    have hpre : ∀ a ∈ pre, locLt a.loc tg.loc := by
      have h2 := (List.pairwise_append.mp hpairwise).2.2
      exact fun a ha => h2 a ha tg (List.mem_cons_self _ _)
    obtain ⟨e0, he0, hor0⟩ := hct.el
    have hunt : Untouched rest (locP tg.loc) (locI tg.loc) := by
      intro tr htr
      rcases hsort tr htr with h | ⟨h1, h2⟩
      · exact Or.inl (by omega)
      · exact Or.inr h2
    have hS_el : elemAt (mergeLoop map rest parts) (locP tg.loc) (locI tg.loc)
        = some e0 := by
      rw [ih3 _ _ hunt]
      exact he0
    constructor
    · intro p' i' hU
      have hUrest : Untouched rest p' i' := fun tr htr => hU tr (List.mem_cons_of_mem _ htr)
      have hUtg := hU tg (List.mem_cons_self _ _)
      show elemAt (processTag map (mergeLoop map rest parts) tg) p' i' = elemAt parts p' i'
      rw [processTag_stable map _ tg p' i' hUtg]
      exact ih3 p' i' hUrest
    · intro p' i' e he hnt
      have he' : elemAt (processTag map (mergeLoop map rest parts) tg) p' i' = some e := he
      by_cases htouch : p' = locP tg.loc ∧ locI tg.loc ≤ i'
      case neg =>
        have hcond : p' ≠ locP tg.loc ∨ i' < locI tg.loc := by
          by_cases hp : p' = locP tg.loc
          · right
            rcases Nat.lt_or_ge i' (locI tg.loc) with h | h
            · exact h
            · exact absurd ⟨hp, h⟩ htouch
          · exact Or.inl hp
        rw [processTag_stable map _ tg p' i' hcond] at he'
        have hnt2 : ¬ Untouched rest p' i' := fun hU => hnt (fun tr htr => by
          rcases List.mem_cons.mp htr with h | h
          · rw [h]
            exact hcond
          · exact hU tr h)
        exact ih2 p' i' e he' hnt2
      case pos =>
        obtain ⟨hpeq, hile⟩ := htouch
        subst hpeq
        obtain ⟨partS, hqS, helS⟩ : ∃ partS,
            nth (mergeLoop map rest parts) (locP tg.loc) = some partS
            ∧ nth partS (locI tg.loc) = some e0 := by
          cases hq2 : nth (mergeLoop map rest parts) (locP tg.loc) with
          | none =>
            unfold elemAt at hS_el
            rw [hq2] at hS_el
            simp only [] at hS_el
            exact Option.noConfusion hS_el
          | some partS =>
            unfold elemAt at hS_el
            rw [hq2] at hS_el
            exact ⟨partS, rfl, hS_el⟩
        have hremote : ∀ j', locI tg.loc < j' →
            elemAt (mergeLoop map rest parts) (locP tg.loc) j' = some e →
            cleanElem e ∨ skipElem map e := by
          intro j' hj hje
          by_cases hU : Untouched rest (locP tg.loc) j'
          · rw [ih3 _ _ hU] at hje
            refine Or.inl (orig_elem_clean parts hshape _ j' e hje ?_)
            intro tgc hmc hlc
            rw [hsplit] at hmc
            rcases List.mem_append.mp hmc with hin | hin
            · have h3 := hpre tgc hin
              rw [hlc] at h3
              unfold locLt at h3
              rw [show locP (Loc.top (locP tg.loc) j') = locP tg.loc from rfl,
                show locI (Loc.top (locP tg.loc) j') = j' from rfl] at h3
              rcases h3 with h3 | ⟨-, h3⟩ <;> omega
            · rcases List.mem_cons.mp hin with heq | hin2
              · subst heq
                rw [hct.loc_eq] at hlc
                injection hlc with h4 h5
                omega
              · have h4 := hU tgc hin2
                rw [hlc] at h4
                rw [show locP (Loc.top (locP tg.loc) j') = locP tg.loc from rfl,
                  show locI (Loc.top (locP tg.loc) j') = j' from rfl] at h4
                rcases h4 with h4 | h4
                · exact h4 rfl
                · omega
          · exact ih2 _ j' e hje hU
        have hproc : ∀ v2 : List Char, cleanTxt v2 →
            elemAt (processKnown (mergeLoop map rest parts) tg v2) (locP tg.loc) i'
              = some e →
            cleanElem e ∨ skipElem map e := by
          intro v2 hv2 hpe
          have hcl := processKnown_classify (mergeLoop map rest parts) tg v2
            (locP tg.loc) (locI tg.loc) partS e0 hct.loc_eq hqS helS hor0
            hct.full_eq hct.first_eq hct.last_eq
            (fun c hc => isBr_false_of_isPS c (hct.t1_clean c hc))
            (fun c hc => isBr_false_of_isPS c (hct.t2_clean c hc)) hv2
          rcases hcl i' e hpe hile with h | ⟨j', hj, hje⟩
          · exact Or.inl h
          · exact hremote j' hj hje
        unfold processTag at he'
        simp only [] at he'
        cases hk : mapHas map tg.tag with
        | false =>
          rw [hk] at he'
          simp only [Bool.not_false, eq_self_iff_true, if_true] at he'
          cases ho : tg.opt with
          | false =>
            rw [ho] at he'
            simp only [Bool.false_eq_true, if_false] at he'
            by_cases hi : i' = locI tg.loc
            · subst hi
              rw [hS_el] at he'
              injection he' with h5
              right
              rcases hor0 with hp0 | ⟨g0, hp0⟩
              · exact ⟨tg.full, Or.inl (by rw [← h5, hp0]), hct.construct,
                  by rw [hct.tag_eq]; exact hk⟩
              · exact ⟨tg.full, Or.inr ⟨g0, by rw [← h5, hp0]⟩, hct.construct,
                  by rw [hct.tag_eq]; exact hk⟩
            · exact hremote i' (by omega) he'
          | true =>
            rw [ho] at he'
            simp only [eq_self_iff_true, if_true] at he'
            exact hproc [] cleanTxt_nil he'
        | true =>
          rw [hk] at he'
          simp only [Bool.not_true, Bool.false_eq_true, if_false] at he'
          exact hproc (mapGet map tg.tag) (mapGet_clean map hvals _) he'

/-- Every element of a merged shaped document is bracket-free or a
skipped unknown non-optional construct. -/
theorem merge_result_classified (map : FieldMap) (parts : Parts)
    (hshape : shapedParts parts) (hvals : cleanVals map) :
    ∀ p' i' e, elemAt (merge map parts) p' i' = some e →
      cleanElem e ∨ skipElem map e := by
  obtain ⟨h3, h2⟩ := mergeLoop_inv map parts hshape hvals (collectTags parts) []
    (by simp)
  intro p' i' e he
  by_cases hU : Untouched (collectTags parts) p' i'
  · rw [show merge map parts = mergeLoop map (collectTags parts) parts from rfl] at he
    rw [h3 p' i' hU] at he
    refine Or.inl (orig_elem_clean parts hshape p' i' e he ?_)
    intro tgc hmc hlc
    have h4 := hU tgc hmc
    rw [hlc] at h4
    rw [show locP (Loc.top p' i') = p' from rfl,
      show locI (Loc.top p' i') = i' from rfl] at h4
    rcases h4 with h4 | h4
    · exact h4 rfl
    · omega
  · exact h2 p' i' e he hU

/-- The merged document of a shaped document is itself shaped. -/
theorem merge_result_shaped (map : FieldMap) (parts : Parts)
    (hshape : shapedParts parts) (hvals : cleanVals map) :
    shapedParts (merge map parts) := by
  intro part hpart e hel
  obtain ⟨p', hp'⟩ := nth_of_mem _ part hpart
  obtain ⟨i', hi'⟩ := nth_of_mem _ e hel
  have he : elemAt (merge map parts) p' i' = some e := by simp [elemAt, hp', hi']
  rcases merge_result_classified map parts hshape hvals p' i' e he with h | h
  · cases e with
    | para t => exact Or.inl h
    | item g t => exact Or.inl h
    | table rows => exact h
  · obtain ⟨t, hpe, hcon, -⟩ := h
    rcases hpe with hp0 | ⟨g, hp0⟩
    · subst hp0
      exact Or.inr hcon
    · subst hp0
      exact Or.inr hcon

/-! ## Claim C8 -/

/-- The field map and document of the C8 counterexample: the value of a
known non-optional field is itself a tag construct for that field. -/
def c8map : FieldMap := [(strL "F", strL "<<F>>")]

def c8doc : Parts := [[Elem.para (strL "<<F>>")]]

/-- Claim C8, counterexample: when a field value contains tag syntax,
re-scanning the output of merge finds a match whose tag name is present
in the field map and non-optional, so the claim fails as stated. -/
theorem claim8_cex :
    ∃ tg ∈ collectTags (merge c8map c8doc),
      mapHas c8map tg.tag = true ∧ tg.opt = false := by
  decide

instance (parts : Parts) : Decidable (shapedParts parts) := by
  unfold shapedParts
  infer_instance

instance (map : FieldMap) : Decidable (cleanVals map) := by
  unfold cleanVals
  infer_instance

/-- Claim C8 (amended): for every document whose paragraph and list-item
texts are bracket-free or a single whole-text tag construct and whose
table texts are bracket-free, and every field map whose values are
bracket-free, re-running the scanner on the output of merge with that
map finds zero matches whose tag name is present in the map and
non-optional: no double substitution. -/
theorem claim8_thm (map : FieldMap) (parts : Parts)
    (hshape : shapedParts parts) (hvals : cleanVals map) :
    ∀ tg ∈ collectTags (merge map parts),
      ¬(mapHas map tg.tag = true ∧ tg.opt = false) := by
  intro tg htg h
  obtain ⟨hhas, hopt⟩ := h
  have hshape2 : shapedParts (merge map parts) :=
    merge_result_shaped map parts hshape hvals
  have hct : CTag (merge map parts) tg := master_fact _ hshape2 tg htg
  obtain ⟨e, he, hor⟩ := hct.el
  rcases merge_result_classified map parts hshape hvals _ _ e he with hcl | hsk
  · have hbr : '<' ∈ tg.full := by
      rw [hct.full_eq]
      simp [fullCh]
    have hclf : cleanTxt tg.full := by
      rcases hor with h0 | ⟨g, h0⟩
      · subst h0
        exact hcl
      · subst h0
        exact hcl
    have h6 := hclf '<' hbr
    simp [isBr] at h6
  · obtain ⟨t, hpe, -, hmh⟩ := hsk
    have ht : t = tg.full := by
      rcases hor with h0 | ⟨g, h0⟩ <;> rcases hpe with h1 | ⟨g2, h1⟩ <;> rw [h0] at h1
      · injection h1 with h2
        exact h2.symm
      · exact Elem.noConfusion h1
      · exact Elem.noConfusion h1
      · injection h1 with h2 h3
        exact h3.symm
    rw [ht, hct.tag_eq, hhas] at hmh
    exact Bool.noConfusion hmh

/-- The document and field map of the C8 witness: a shaped document with
one construct paragraph and one plain paragraph, and a bracket-free
field value. -/
def w8map : FieldMap := [(strL "F", strL "val")]

def w8doc : Parts := [[Elem.para (strL "<<F>>"), Elem.para (strL "hello")]]

theorem claim8_wit :
    shapedParts w8doc ∧ cleanVals w8map
    ∧ ∀ tg ∈ collectTags (merge w8map w8doc),
        ¬(mapHas w8map tg.tag = true ∧ tg.opt = false) :=
  ⟨by decide, by decide, claim8_thm w8map w8doc (by decide) (by decide)⟩
